import Mathlib

/-
  Verification development for the spelling-practice session engine
  (`src/components/DailyQuiz.js`) and its word-queue store
  (`src/services/storage.js`).

  The JavaScript is embedded shallowly: the mutable `practiceState`,
  `state` and store records become Lean structures, each handler becomes a
  pure function from old state to new state (plus the store operations it
  issues), and the asynchronous session flow becomes a step function over
  an explicit event script.  Loops are written with an explicit fuel
  argument instantiated with a bound that the loop counter can never
  exceed, so every definition computes by reduction.
-/

namespace WordGame

/- ===================== Definitions ===================== -/

/-- Letter-input state for the word currently under test, mirroring the
`practiceState` object created in `renderQuizTest` (fields `input`,
`targetWord`, `errorCount`) together with the `processing` flag added by
`attachQuizListeners`. -/
structure PracticeState where
  input : String
  targetWord : String
  errorCount : Nat
  processing : Bool
deriving Repr, DecidableEq

/-- Outcome of one letter submission: the letter matched
`targetWord[currentPos]` (accepted) or not (rejected). -/
inductive Decision where
  | accepted
  | rejected
deriving Repr, DecidableEq

/-- Synchronous prefix of `handleLetterInput`, up to its first `await`:
the `processing` guard, the comparison of the submitted letter against
`targetWord[currentPos]`, and the mutations that happen before any
suspension (append to `input` and set `processing` for a correct letter;
increment `errorCount` and set `processing` -- the first statement of
`handleError` -- for a wrong letter).  Events that arrive while
`processing` is `true` return immediately with no mutation and no
decision. -/
def handleLetterInput (letter : Char) (ps : PracticeState) :
    PracticeState × Option Decision :=
  if ps.processing then (ps, none)
  else
    let currentPos := ps.input.length
    let expectedLetter := ps.targetWord.data.get? currentPos
    if some letter = expectedLetter then
      ({ ps with input := ps.input.push letter, processing := true }, some .accepted)
    else
      ({ ps with errorCount := ps.errorCount + 1, processing := true }, some .rejected)

/-- Tail of the handler, run after its awaits when no further events
intervene: a correct non-final letter releases `processing`; the final
letter keeps it held (control moves to `completeQuizWord`); a wrong letter
clears `input` back to empty and releases `processing` (end of
`handleError`). -/
def handleLetterRelease (ps : PracticeState) (d : Decision) : PracticeState :=
  match d with
  | .accepted => if ps.input = ps.targetWord then ps else { ps with processing := false }
  | .rejected => { ps with input := "", processing := false }

/-- One letter submission executed to completion with no interleaved
events: the synchronous prefix followed by the handler tail. -/
def handleLetterFull (letter : Char) (ps : PracticeState) :
    PracticeState × Option Decision :=
  match handleLetterInput letter ps with
  | (ps', none) => (ps', none)
  | (ps', some d) => (handleLetterRelease ps' d, some d)

/-- A rapid-fire burst: a list of input events all delivered before the
first handler reaches its release point, each one passing through the
synchronous prefix of `handleLetterInput`.  Returns the final state and
every decision produced. -/
def processBurst (letters : List Char) (ps : PracticeState) :
    PracticeState × List Decision :=
  match letters with
  | [] => (ps, [])
  | l :: ls =>
    let r := handleLetterInput l ps
    let rest := processBurst ls r.1
    (rest.1, r.2.toList ++ rest.2)

/-- A word record as seen by the quiz session: database id, text, and the
`drilled` (taught) flag. -/
structure Word where
  id : Nat
  text : String
  drilled : Bool
deriving Repr, DecidableEq

/-- The fixed table of confusable same-sounding pairs from
`DailyQuiz.js`. -/
def HOMOPHONE_PAIRS : List (List String) :=
  [["there", "their"], ["to", "two"], ["know", "no"]]

/-- The `areHomophones` / `candidateIsHomophone` test of
`separateHomophones`: some pair of the table contains both words. -/
def isHomophonePair (a b : String) : Bool :=
  HOMOPHONE_PAIRS.any (fun pair => pair.contains a && pair.contains b)

/-- Lower-casing as performed by `toLowerCase()` at the source's call
sites, written over the character list so that it computes by kernel
reduction. -/
def lowerStr (s : String) : String :=
  String.mk (s.data.map Char.toLower)

/-- Lower-cased text list of a word queue, the `wordTexts` array of
`separateHomophones` (kept in sync with the word array by the parallel
swaps, hence representable as a map). -/
def textsOf (l : List Word) : List String :=
  l.map (fun w => lowerStr w.text)

/-- Lower-cased text at one queue position, when in range. -/
def textAt (l : List Word) (k : Nat) : Option String :=
  l[k]?.map (fun w => (lowerStr w.text))

/-- In-place swap of two positions, as performed by the destructuring
assignments in `separateHomophones`.  Out-of-range indices leave the list
unchanged (this never happens at the call sites). -/
def listSwap (l : List α) (i j : Nat) : List α :=
  match l[i]?, l[j]? with
  | some a, some b => (l.set i b).set j a
  | _, _ => l

/-- The inner `for (let j = i + 2; ...)` loop of `separateHomophones`:
the first index at or after `j` whose word is not a homophone partner of
`currentWord`, or `none` if the scan runs off the end.  `fuel` bounds the
number of iterations; at the call sites it starts at the array length,
which the loop counter can never consume. -/
def findCandidate (wordTexts : List String) (currentWord : String) :
    Nat → Nat → Option Nat
  | _, 0 => none
  | j, fuel + 1 =>
    match wordTexts[j]? with
    | some candidateWord =>
      if isHomophonePair currentWord candidateWord then
        findCandidate wordTexts currentWord (j + 1) fuel
      else some j
    | none => none

/-- The outer `for (let i = 0; i < result.length - 1; ...)` loop of
`separateHomophones`: check adjacency at `(i, i+1)`, and on a collision
swap position `i+1` with the first later non-partner position. -/
def sepLoop : List Word → Nat → Nat → List Word
  | result, _, 0 => result
  | result, i, fuel + 1 =>
    if h : i + 1 < result.length then
      if isHomophonePair (lowerStr (result.get ⟨i, Nat.lt_of_succ_lt h⟩).text)
          (lowerStr (result.get ⟨i + 1, h⟩).text) then
        match findCandidate (textsOf result)
            (lowerStr (result.get ⟨i, Nat.lt_of_succ_lt h⟩).text)
            (i + 2) (textsOf result).length with
        | some j => sepLoop (listSwap result (i + 1) j) (i + 1) fuel
        | none => sepLoop result (i + 1) fuel
      else sepLoop result (i + 1) fuel
    else result

/-- The `separateHomophones` pre-pass: sequences of fewer than 2 words
are returned unchanged, otherwise the adjacency scan runs from index 0. -/
def separateHomophones (queue : List Word) : List Word :=
  if queue.length < 2 then queue else sepLoop queue 0 queue.length

/-- Specification-side predicate: positions `k` and `k+1` hold two
members of a known homophone pair. -/
def adjacentHomophone (l : List Word) (k : Nat) : Bool :=
  match textAt l k, textAt l (k + 1) with
  | some a, some b => isHomophonePair a b
  | _, _ => false

/-- A persisted word row of one child as read through `getWords` in
`storage.js`: database id and `position` field.  Only non-deleted rows
are modelled, because every queue operation reads and writes the queue
through the non-deleted view. -/
structure StoreWord where
  id : Nat
  pos : Nat
deriving Repr, DecidableEq

/-- The `createWord` queue effect: every existing word of the child is
shifted back by one position and the new word is stored at position 0. -/
def createWord (newId : Nat) (st : List StoreWord) : List StoreWord :=
  st.map (fun w => { w with pos := w.pos + 1 }) ++ [⟨newId, 0⟩]

/-- The `Math.max(...allWords.map(w => w.position))` computation of
`moveWordToBack` (the store is never empty there, since the moved word
itself was found). -/
def maxPos (st : List StoreWord) : Nat :=
  (st.map (fun w => w.pos)).foldr max 0

/-- Insertion into a position-sorted list, the building block of the
position sort performed by the store when it reads words back
(`sortBy('position')`). -/
def insertByPos (w : StoreWord) : List StoreWord → List StoreWord
  | [] => [w]
  | x :: xs => if w.pos ≤ x.pos then w :: x :: xs else x :: insertByPos w xs

/-- Read-back of the child's words sorted by position. -/
def sortByPos (st : List StoreWord) : List StoreWord :=
  st.foldr insertByPos []

/-- The normalization loop at the end of `moveWordToBack`: read the words
back sorted by position and assign each its index, removing gaps. -/
def normalizePositions (st : List StoreWord) : List StoreWord :=
  (sortByPos st).enum.map (fun p => { p.2 with pos := p.1 })

/-- `moveWordToBack`: move the word beyond the current maximum position,
then normalize all positions to `0, 1, 2, ...`.  An unknown id leaves the
store unchanged (the early `if (!word) return`). -/
def moveWordToBack (wordId : Nat) (st : List StoreWord) : List StoreWord :=
  match st.find? (fun w => w.id == wordId) with
  | none => st
  | some _ =>
    normalizePositions
      (st.map (fun w => if w.id == wordId then { w with pos := maxPos st + 1 } else w))

/-- The backward-shift applied by `moveWordToPosition` when the word
moves to a higher position: words strictly between the current and the
target position move forward by one. -/
def shiftDown (currentPosition targetPosition p : Nat) : Nat :=
  if currentPosition < p ∧ p ≤ targetPosition then p - 1 else p

/-- The forward-shift applied by `moveWordToPosition` when the word moves
to a lower position: words between the target and the current position
move back by one. -/
def shiftUp (currentPosition targetPosition p : Nat) : Nat :=
  if targetPosition ≤ p ∧ p < currentPosition then p + 1 else p

/-- `moveWordToPosition`: clamp the requested position into
`[0, allWords.length - 1]`, return unchanged if the word is already
there, otherwise shift the words in between by one and write the clamped
position on the moved word.  An unknown id leaves the store unchanged. -/
def moveWordToPosition (wordId : Nat) (targetPosition : Int)
    (st : List StoreWord) : List StoreWord :=
  match st.find? (fun w => w.id == wordId) with
  | none => st
  | some word =>
    let currentPosition := word.pos
    let maxPosition : Int := (st.length : Int) - 1
    let target : Nat := (max 0 (min targetPosition maxPosition)).toNat
    if currentPosition = target then st
    else if currentPosition < target then
      st.map (fun w =>
        if w.id == wordId then { w with pos := target }
        else { w with pos := shiftDown currentPosition target w.pos })
    else
      st.map (fun w =>
        if w.id == wordId then { w with pos := target }
        else { w with pos := shiftUp currentPosition target w.pos })

/-- Distinctness of the `position` field across a child's rows: the
spec's "strict ordering at rest". -/
def positionsDistinct (st : List StoreWord) : Prop :=
  (st.map (fun w => w.pos)).Nodup

/-- Distinctness of row ids (primary keys). -/
def idsDistinct (st : List StoreWord) : Prop :=
  (st.map (fun w => w.id)).Nodup

instance : DecidablePred positionsDistinct := fun st => by
  unfold positionsDistinct; infer_instance

instance : DecidablePred idsDistinct := fun st => by
  unfold idsDistinct; infer_instance

/-- One entry of `state.completedWords`: the word id, its text, and the
first-try flag computed at completion time (the `audioBlob` field carries
no session logic and is omitted). -/
structure CompletedWord where
  id : Nat
  word : String
  firstTry : Bool
deriving Repr, DecidableEq

/-- The session phase field of the `state` object. -/
inductive Phase where
  | spelling
  | reading
  | complete
deriving Repr, DecidableEq

/-- A store mutation issued by the session (the storage.js calls made
from DailyQuiz.js). -/
inductive StoreOp where
  | markDrilled (wordId : Nat)
  | recordAttempt (wordId : Nat) (success : Bool)
  | recordSightRead (wordId : Nat) (recognized : Bool)
  | moveToPosition (wordId : Nat) (position : Nat)
  | moveToBack (wordId : Nat)
deriving Repr, DecidableEq

/-- The word id an operation writes to. -/
def opId : StoreOp → Nat
  | .markDrilled i => i
  | .recordAttempt i _ => i
  | .recordSightRead i _ => i
  | .moveToPosition i _ => i
  | .moveToBack i => i

/-- Whether an operation is one of the two deferred queue-position
writes. -/
def isMoveOp : StoreOp → Bool
  | .moveToPosition _ _ => true
  | .moveToBack _ => true
  | _ => false

/-- Insertion into a JS `Set` represented as a duplicate-free list. -/
def addToSet [DecidableEq α] (x : α) (s : List α) : List α :=
  if x ∈ s then s else s ++ [x]

/-- The session `state` object of `renderDailyQuiz`, together with the
word currently on display (the one `render` shifted off the front of the
queue). -/
structure QuizState where
  currentWord : Option Word
  quizQueue : List Word
  quizLength : Nat
  completedCount : Nat
  completedWords : List CompletedWord
  totalErrors : Nat
  missedWords : List Nat
  phase : Phase
  readingQueue : List CompletedWord
  readingIndex : Nat
  readingResults : List (String × Bool)
  missedReading : List String
  exiting : Bool
deriving Repr, DecidableEq

/-- The `render` dispatcher of the spelling phase together with the
`renderComplete` transition: once `completedCount` reaches `quizLength`
the session enters the reading phase (the reading queue is the completed
words, shuffled when longer than 6 -- the shuffle is a parameter since
the source uses `Math.random`), otherwise the next word is shifted off
the front of the queue for display. -/
def renderStep (shuffle : List CompletedWord → List CompletedWord)
    (st : QuizState) : QuizState :=
  if st.completedCount ≥ st.quizLength then
    let rq := if st.completedWords.length > 6 then shuffle st.completedWords
              else st.completedWords
    { st with
        phase := .reading
        readingQueue := rq
        readingIndex := 0
        readingResults := []
        currentWord := none }
  else
    match st.quizQueue with
    | [] => { st with currentWord := none }
    | w :: rest => { st with currentWord := some w, quizQueue := rest }

/-- `completeQuizWord` without its trailing re-render: the eager store
writes (`markWordDrilled` on the first successful spell of an untaught
word, then `recordAttempt`), the session bookkeeping (`missedWords`,
`completedCount`, `completedWords`, `totalErrors`) and the two-from-front
reinsertion of a word spelled with errors (shift the next word, unshift
the failed word -- whose local `drilled` copy is now true -- then unshift
the next word). -/
def completeQuizWordCore (w : Word) (errorCount : Nat) (st : QuizState) :
    QuizState × List StoreOp :=
  let hadErrors := errorCount > 0
  let wasPreviouslyMissed := decide (w.id ∈ st.missedWords)
  let drillOps := if w.drilled then [] else [StoreOp.markDrilled w.id]
  let retryWord : Word := { w with drilled := true }
  let attemptOps := [StoreOp.recordAttempt w.id (decide ¬hadErrors)]
  let st1 := if hadErrors then { st with missedWords := addToSet w.id st.missedWords }
             else st
  let st2 :=
    if hadErrors then
      match st1.quizQueue with
      | [] => { st1 with quizQueue := [retryWord] }
      | nextWord :: rest => { st1 with quizQueue := nextWord :: retryWord :: rest }
    else
      { st1 with
          completedCount := st1.completedCount + 1
          completedWords := st1.completedWords ++ [⟨w.id, w.text, !wasPreviouslyMissed⟩] }
  let st3 := if errorCount > 0 then { st2 with totalErrors := st2.totalErrors + errorCount }
             else st2
  (st3, drillOps ++ attemptOps)

/-- `completeQuizWord` as invoked from the input arbiter: the core
bookkeeping followed by the trailing `render` call. -/
def completeQuizWord (shuffle : List CompletedWord → List CompletedWord)
    (w : Word) (errorCount : Nat) (st : QuizState) : QuizState × List StoreOp :=
  let r := completeQuizWordCore w errorCount st
  (renderStep shuffle r.1, r.2)

/-- `handleReadingResponse` followed by the completion check at the top
of `renderReadingCard`: record the sight-read eagerly, either log the
success or mark the miss and splice the card back in two positions later
(clamped to the queue length), advance the index, and enter the final
completion screen once the reading queue is exhausted. -/
def readingStep (recognized : Bool) (st : QuizState) : QuizState × List StoreOp :=
  match st.readingQueue[st.readingIndex]? with
  | none => (st, [])
  | some currentWord =>
    let ops := [StoreOp.recordSightRead currentWord.id recognized]
    let st1 :=
      if recognized then
        { st with
            readingResults := st.readingResults ++ [(currentWord.word, true)]
            readingIndex := st.readingIndex + 1 }
      else
        { st with
            missedReading := addToSet currentWord.word st.missedReading
            readingQueue := st.readingQueue.insertIdx
              (min (st.readingIndex + 2) st.readingQueue.length) currentWord
            readingIndex := st.readingIndex + 1 }
    let st2 := if st1.readingIndex ≥ st1.readingQueue.length
               then { st1 with phase := .complete } else st1
    (st2, ops)

/-- `finalizeQueuePositions`: the single deferred position flush, one
queue write per completed word, in completion order. -/
def finalizeQueuePositions (st : QuizState) : List StoreOp :=
  st.completedWords.foldl (fun ops completedWord =>
    ops ++
      [if completedWord.id ∈ st.missedWords ∨ completedWord.word ∈ st.missedReading then
        StoreOp.moveToPosition completedWord.id st.quizLength
      else if completedWord.firstTry = false then
        StoreOp.moveToPosition completedWord.id st.quizLength
      else
        StoreOp.moveToBack completedWord.id]) []

/-- One user-visible session event: finishing the spelling of the
displayed word with a given error count, answering a reading flashcard,
pressing the exit button, or pressing the done button on the final
screen. -/
inductive Event where
  | spellComplete (errorCount : Nat)
  | readGotIt
  | readMissed
  | exitPressed
  | donePressed
deriving Repr, DecidableEq

/-- One step of the session state machine.  Events model user actions
together with the landings of their handler continuations.  The source
checks `state.exiting` only in the teaching/test/transition render
loops, which keeps new screens from coming alive after the exit button
is pressed; `completeQuizWord`, `handleReadingResponse` and the
final-completion done handler never check it, so a continuation already
in flight when the exit button is pressed still runs to completion and
still mutates state, and on the completion screen the done button still
runs `finalizeQueuePositions`.  Accordingly `spellComplete`, the two
reading responses and `donePressed` are not gated on `exiting`; this
over-approximates the realizable event sequences (a dead screen merely
makes some events impossible), which only strengthens the universally
quantified theorems below.  The exit button exists only on the spelling
and reading screens, the done button only on the completion screens. -/
def step (shuffle : List CompletedWord → List CompletedWord)
    (st : QuizState) (ev : Event) : QuizState × List StoreOp :=
  match ev with
  | .exitPressed =>
    if st.phase = .spelling ∨ st.phase = .reading then
      ({ st with exiting := true }, [])
    else (st, [])
  | .spellComplete errorCount =>
    match st.phase, st.currentWord with
    | .spelling, some w => completeQuizWord shuffle w errorCount st
    | _, _ => (st, [])
  | .readGotIt =>
    if st.phase = .reading then readingStep true st else (st, [])
  | .readMissed =>
    if st.phase = .reading then readingStep false st else (st, [])
  | .donePressed =>
    if st.phase = .complete then (st, finalizeQueuePositions st) else (st, [])

/-- `renderDailyQuiz` initialization: take the front `quizLength` words
of the child's queue, run the homophone pre-pass over them, reset all
counters, and perform the first `render` (which pops the first word for
display, or transitions straight to the reading phase when the quiz
length is already met). -/
def initSession (shuffle : List CompletedWord → List CompletedWord)
    (allWords : List Word) (quizLength : Nat) : QuizState :=
  renderStep shuffle
    { currentWord := none
      quizQueue := separateHomophones (allWords.take quizLength)
      quizLength := quizLength
      completedCount := 0
      completedWords := []
      totalErrors := 0
      missedWords := []
      phase := .spelling
      readingQueue := []
      readingIndex := 0
      readingResults := []
      missedReading := []
      exiting := false }

/-- Run the session over a script of events, accumulating the issued
store operations. -/
def runSteps (shuffle : List CompletedWord → List CompletedWord)
    (st : QuizState) : List Event → QuizState × List StoreOp
  | [] => (st, [])
  | ev :: evs =>
    let r := step shuffle st ev
    let rest := runSteps shuffle r.1 evs
    (rest.1, r.2 ++ rest.2)

/-- The words still owed a spelling completion: the word on display and
the remaining spelling queue. -/
def pendingWords (st : QuizState) : List Word :=
  st.currentWord.toList ++ st.quizQueue

/-- Session bookkeeping invariant relating word ids to the store log:
pending ids are pairwise distinct, completed and reading-queue entries
never alias a pending word, and no logged store operation targets a
pending untaught word. -/
def SessInv (st : QuizState) (log : List StoreOp) : Prop :=
  ((pendingWords st).map (fun w => w.id)).Nodup ∧
  (∀ cw ∈ st.completedWords, ∀ w ∈ pendingWords st, cw.id ≠ w.id) ∧
  (∀ cw ∈ st.readingQueue, ∀ w ∈ pendingWords st, cw.id ≠ w.id) ∧
  (∀ w ∈ pendingWords st, w.drilled = false → ∀ op ∈ log, opId op ≠ w.id)

/- ===================== Theorems ===================== -/

/- ----- Input arbiter (C4, C7) ----- -/

theorem handleLetterInput_locked (letter : Char) (ps : PracticeState)
    (h : ps.processing = true) : handleLetterInput letter ps = (ps, none) := by
  simp [handleLetterInput, h]

theorem handleLetterInput_locks (letter : Char) (ps : PracticeState)
    (h : ps.processing = false) :
    (handleLetterInput letter ps).1.processing = true := by
  unfold handleLetterInput
  rw [h]
  simp only [Bool.false_eq_true, if_false]
  split <;> rfl

theorem handleLetterInput_decides (letter : Char) (ps : PracticeState)
    (h : ps.processing = false) :
    (handleLetterInput letter ps).2.toList.length = 1 := by
  unfold handleLetterInput
  rw [h]
  simp only [Bool.false_eq_true, if_false]
  split <;> rfl

theorem processBurst_locked (letters : List Char) (ps : PracticeState)
    (h : ps.processing = true) : processBurst letters ps = (ps, []) := by
  induction letters with
  | nil => rfl
  | cons l ls ih =>
    simp [processBurst, handleLetterInput_locked l ps h, ih]

/-- Claim C4: while `processing` is held, every incoming event is dropped
without mutating `input` or `errorCount` and produces no decision; and a
rapid-fire burst starting from an unlocked state produces exactly one
decision, with the final state equal to the state after the first event
alone. -/
theorem rapid_fire_single_decision :
    (∀ (letter : Char) (ps : PracticeState), ps.processing = true →
      handleLetterInput letter ps = (ps, none)) ∧
    (∀ (first : Char) (dups : List Char) (ps : PracticeState),
      ps.processing = false →
      (processBurst (first :: dups) ps).2.length = 1 ∧
      (processBurst (first :: dups) ps).1 = (handleLetterInput first ps).1) := by
  refine ⟨handleLetterInput_locked, ?_⟩
  intro first dups ps h
  have hlock := handleLetterInput_locks first ps h
  have hdrop := processBurst_locked dups (handleLetterInput first ps).1 hlock
  have hdec := handleLetterInput_decides first ps h
  constructor
  · simp [processBurst, hdrop, hdec]
  · simp [processBurst, hdrop]

/-- Concrete instance of `rapid_fire_single_decision`: a duplicate tap of
`'c'` on the word "cat" while the first tap is in flight is dropped, and
the burst yields exactly one decision. -/
theorem rapid_fire_single_decision_witness :
    handleLetterInput 'c' ⟨"c", "cat", 0, true⟩ = (⟨"c", "cat", 0, true⟩, none) ∧
    (processBurst ['c', 'c'] ⟨"", "cat", 0, false⟩).2.length = 1 := by
  exact ⟨rapid_fire_single_decision.1 'c' ⟨"c", "cat", 0, true⟩ rfl,
    (rapid_fire_single_decision.2 'c' ['c'] ⟨"", "cat", 0, false⟩ rfl).1⟩

/-- Claim C7: a wrong letter submitted while unlocked runs the correction
sequence to completion: `input` is cleared back to the empty string,
`processing` is released, and `errorCount` is incremented by one on top
of whatever it had accumulated (it is not reset). -/
theorem wrong_letter_resets_input_keeps_errors
    (letter : Char) (ps : PracticeState)
    (hfree : ps.processing = false)
    (hwrong : some letter ≠ ps.targetWord.data.get? ps.input.length) :
    handleLetterFull letter ps =
      ({ ps with input := "", errorCount := ps.errorCount + 1, processing := false },
        some .rejected) := by
  unfold handleLetterFull handleLetterInput
  rw [hfree]
  simp only [Bool.false_eq_true, if_false]
  rw [if_neg hwrong]
  rfl

/-- Concrete instance of `wrong_letter_resets_input_keeps_errors`: with
"ca" already typed toward "cat" and two errors accumulated, typing 'x'
clears the input, keeps `errorCount` growing to 3, and releases the
lock. -/
theorem wrong_letter_resets_input_keeps_errors_witness :
    handleLetterFull 'x' ⟨"ca", "cat", 2, false⟩ =
      (⟨"", "cat", 3, false⟩, some .rejected) := by
  exact wrong_letter_resets_input_keeps_errors 'x' ⟨"ca", "cat", 2, false⟩ rfl (by decide)

/- ----- Homophone separator (C6) ----- -/

theorem isHomophonePair_iff (a b : String) :
    isHomophonePair a b = true ↔
      ((a = "there" ∨ a = "their") ∧ (b = "there" ∨ b = "their")) ∨
      ((a = "to" ∨ a = "two") ∧ (b = "to" ∨ b = "two")) ∨
      ((a = "know" ∨ a = "no") ∧ (b = "know" ∨ b = "no")) := by
  simp [isHomophonePair, HOMOPHONE_PAIRS]

theorem homophone_partner_unique {t u v : String}
    (htu : isHomophonePair t u = true) (htv : isHomophonePair t v = true)
    (hut : u ≠ t) (hvt : v ≠ t) (hvu : v ≠ u) : False := by
  rw [isHomophonePair_iff] at htu htv
  rcases htu with ⟨ht, hu⟩ | ⟨ht, hu⟩ | ⟨ht, hu⟩ <;>
    rcases htv with ⟨ht', hv⟩ | ⟨ht', hv⟩ | ⟨ht', hv⟩ <;>
      rcases ht with rfl | rfl <;> rcases hu with rfl | rfl <;>
        rcases hv with rfl | rfl <;> simp_all

theorem listSwap_length (l : List α) (i j : Nat) :
    (listSwap l i j).length = l.length := by
  unfold listSwap
  rcases h1 : l[i]? with _ | a <;> rcases h2 : l[j]? with _ | b <;> simp

theorem listSwap_getElem?_of_ne (l : List α) (i j k : Nat)
    (h1 : k ≠ i) (h2 : k ≠ j) : (listSwap l i j)[k]? = l[k]? := by
  unfold listSwap
  rcases hi : l[i]? with _ | a <;> rcases hj : l[j]? with _ | b <;> try rfl
  rw [List.getElem?_set_ne (Ne.symm h2), List.getElem?_set_ne (Ne.symm h1)]

theorem listSwap_getElem?_fst (l : List α) (i j : Nat)
    (hi : i < l.length) (hj : j < l.length) :
    (listSwap l i j)[i]? = l[j]? := by
  obtain ⟨a, hi'⟩ : ∃ a, l[i]? = some a := ⟨_, List.getElem?_eq_getElem hi⟩
  obtain ⟨b, hj'⟩ : ∃ b, l[j]? = some b := ⟨_, List.getElem?_eq_getElem hj⟩
  unfold listSwap
  rw [hi', hj']
  by_cases hij : i = j
  · subst hij
    have hab : a = b := Option.some_inj.mp (hi'.symm.trans hj')
    subst hab
    rw [List.getElem?_set_self (by simpa using hi)]
  · rw [List.getElem?_set_ne (Ne.symm hij), List.getElem?_set_self hi]

theorem listSwap_getElem?_snd (l : List α) (i j : Nat)
    (hi : i < l.length) (hj : j < l.length) :
    (listSwap l i j)[j]? = l[i]? := by
  obtain ⟨a, hi'⟩ : ∃ a, l[i]? = some a := ⟨_, List.getElem?_eq_getElem hi⟩
  obtain ⟨b, hj'⟩ : ∃ b, l[j]? = some b := ⟨_, List.getElem?_eq_getElem hj⟩
  unfold listSwap
  rw [hi', hj']
  rw [List.getElem?_set_self (by simpa using hj)]

theorem listSwap_map (f : α → β) (l : List α) (i j : Nat) :
    (listSwap l i j).map f = listSwap (l.map f) i j := by
  unfold listSwap
  rcases hi : l[i]? with _ | a <;> rcases hj : l[j]? with _ | b <;>
    simp [List.getElem?_map, hi, hj, List.map_set]

theorem nodup_getElem?_ne (l : List α) (hnd : l.Nodup) (a b : Nat)
    (hab : a ≠ b) (ha : a < l.length) (hb : b < l.length) :
    l[a]? ≠ l[b]? := by
  rcases Nat.lt_or_ge a b with h | h
  · exact List.nodup_iff_getElem?_ne_getElem?.mp hnd a b h hb
  · exact (List.nodup_iff_getElem?_ne_getElem?.mp hnd b a
      (Nat.lt_of_le_of_ne h (Ne.symm hab)) ha).symm

theorem listSwap_nodup (l : List α) (i j : Nat)
    (hi : i < l.length) (hj : j < l.length) (hnd : l.Nodup) :
    (listSwap l i j).Nodup := by
  rw [List.nodup_iff_getElem?_ne_getElem?]
  intro a b hab hb
  rw [listSwap_length] at hb
  have ha : a < l.length := Nat.lt_trans hab hb
  -- image of a position under the transposition of i and j
  have key : ∀ k, k < l.length →
      ∃ k', k' < l.length ∧ (listSwap l i j)[k]? = l[k']? ∧
        (k = i → k' = j) ∧ (k ≠ i → k = j → k' = i) ∧ (k ≠ i → k ≠ j → k' = k) := by
    intro k hk
    by_cases hki : k = i
    · subst hki
      exact ⟨j, hj, listSwap_getElem?_fst l k j hk hj, fun _ => rfl,
        fun h _ => absurd rfl h, fun h _ => absurd rfl h⟩
    · by_cases hkj : k = j
      · subst hkj
        exact ⟨i, hi, listSwap_getElem?_snd l i k hi hk, fun h => absurd h hki,
          fun _ _ => rfl, fun _ h => absurd rfl h⟩
      · exact ⟨k, hk, listSwap_getElem?_of_ne l i j k hki hkj, fun h => absurd h hki,
          fun _ h => absurd h hkj, fun _ _ => rfl⟩
  obtain ⟨a', ha', hga, hai, haj, hak⟩ := key a ha
  obtain ⟨b', hb', hgb, hbi, hbj, hbk⟩ := key b hb
  rw [hga, hgb]
  apply nodup_getElem?_ne l hnd a' b' ?_ ha' hb'
  -- the transposition is injective, so distinct positions map to distinct positions
  by_cases hai' : a = i <;> by_cases haj' : a = j <;>
    by_cases hbi' : b = i <;> by_cases hbj' : b = j <;>
      simp_all <;> omega

theorem textsOf_length (l : List Word) : (textsOf l).length = l.length := by
  simp [textsOf]

theorem textsOf_getElem? (l : List Word) (k : Nat) :
    (textsOf l)[k]? = textAt l k := by
  simp [textsOf, textAt, List.getElem?_map]

theorem textAt_listSwap_of_ne (l : List Word) (i j k : Nat)
    (h1 : k ≠ i) (h2 : k ≠ j) : textAt (listSwap l i j) k = textAt l k := by
  simp [textAt, listSwap_getElem?_of_ne l i j k h1 h2]

theorem textAt_listSwap_fst (l : List Word) (i j : Nat)
    (hi : i < l.length) (hj : j < l.length) :
    textAt (listSwap l i j) i = textAt l j := by
  simp [textAt, listSwap_getElem?_fst l i j hi hj]

theorem textsOf_listSwap (l : List Word) (i j : Nat) :
    textsOf (listSwap l i j) = listSwap (textsOf l) i j :=
  listSwap_map _ l i j

theorem adjacentHomophone_eq (l : List Word) (k : Nat) (wa wb : Word)
    (ha : l[k]? = some wa) (hb : l[k + 1]? = some wb) :
    adjacentHomophone l k = isHomophonePair (lowerStr wa.text) (lowerStr wb.text) := by
  unfold adjacentHomophone textAt
  rw [ha, hb]
  rfl

theorem findCandidate_none_first (texts : List String) (t : String)
    (j fuel : Nat) (hfc : findCandidate texts t j fuel = none)
    (_hj : j < texts.length) (hfuel : 0 < fuel) :
    ∀ c, texts[j]? = some c → isHomophonePair t c = true := by
  intro c hc
  by_contra hnp
  rcases fuel with _ | f
  · omega
  · rw [findCandidate, hc] at hfc
    have hfc' : (if isHomophonePair t c = true then findCandidate texts t (j + 1) f
        else some j) = none := hfc
    rw [if_neg hnp] at hfc'
    exact Option.noConfusion hfc'

theorem findCandidate_some_spec (texts : List String) (t : String) :
    ∀ (fuel j j' : Nat), findCandidate texts t j fuel = some j' →
      j' < texts.length ∧ j ≤ j' ∧
        (∀ c, texts[j']? = some c → isHomophonePair t c = false) := by
  intro fuel
  induction fuel with
  | zero =>
    intro j j' h
    exact absurd h (by simp [findCandidate])
  | succ f ih =>
    intro j j' h
    rw [findCandidate] at h
    rcases hc : texts[j]? with _ | c
    · rw [hc] at h
      exact Option.noConfusion h
    · rw [hc] at h
      have h' : (if isHomophonePair t c = true then findCandidate texts t (j + 1) f
          else some j) = some j' := h
      by_cases hp : isHomophonePair t c = true
      · rw [if_pos hp] at h'
        obtain ⟨h1, h2, h3⟩ := ih (j + 1) j' h'
        exact ⟨h1, by omega, h3⟩
      · rw [if_neg hp] at h'
        obtain rfl : j = j' := Option.some_inj.mp h'
        refine ⟨?_, Nat.le_refl j, ?_⟩
        · obtain ⟨hlt, -⟩ := List.getElem?_eq_some_iff.mp hc
          exact hlt
        · intro c' hc'
          rw [hc] at hc'
          obtain rfl : c = c' := Option.some_inj.mp hc'
          exact Bool.eq_false_iff.mpr hp

theorem sepLoop_length (fuel : Nat) :
    ∀ (l : List Word) (i : Nat), (sepLoop l i fuel).length = l.length := by
  induction fuel with
  | zero => intro l i; rfl
  | succ f ih =>
    intro l i
    rw [sepLoop]
    split
    · split
      · split
        · rw [ih, listSwap_length]
        · rw [ih]
      · rw [ih]
    · rfl

theorem sepLoop_nonadjacent (fuel : Nat) :
    ∀ (l : List Word) (i : Nat),
      (textsOf l).Nodup →
      l.length ≤ i + 1 + fuel →
      (∀ k, k < i → k + 2 < l.length → adjacentHomophone l k = false) →
      ∀ k, k + 2 < l.length → adjacentHomophone (sepLoop l i fuel) k = false := by
  induction fuel with
  | zero =>
    intro l i _ hfuel hprev k hk
    exact hprev k (by omega) hk
  | succ f ih =>
    intro l i hnd hfuel hprev k hk
    rw [sepLoop]
    by_cases h : i + 1 < l.length
    · rw [dif_pos h]
      have hi : i < l.length := Nat.lt_of_succ_lt h
      have hcur : l[i]? = some (l.get ⟨i, hi⟩) := by
        rw [List.getElem?_eq_getElem hi]; rfl
      have hnext : l[i + 1]? = some (l.get ⟨i + 1, h⟩) := by
        rw [List.getElem?_eq_getElem h]; rfl
      by_cases hp : isHomophonePair (lowerStr (l.get ⟨i, hi⟩).text)
          (lowerStr (l.get ⟨i + 1, h⟩).text) = true
      · rw [if_pos hp]
        rcases hfc : findCandidate (textsOf l) ((lowerStr (l.get ⟨i, hi⟩).text))
            (i + 2) (textsOf l).length with _ | j
        · -- no candidate: with distinct texts this forces i + 2 ≥ length
          show adjacentHomophone (sepLoop l (i + 1) f) k = false
          refine ih l (i + 1) hnd (by omega) ?_ k hk
          intro k' hk' hk2'
          rcases Nat.lt_or_ge k' i with hki | hki
          · exact hprev k' hki hk2'
          · have hke : k' = i := by omega
            subst hke
            exfalso
            -- position k' + 2 exists and, by findCandidate failing, holds a
            -- homophone partner of the word at k'; three pairwise-distinct
            -- texts cannot all lie in one two-element pair
            have hi2 : k' + 2 < (textsOf l).length := by rw [textsOf_length]; omega
            obtain ⟨c, hc⟩ : ∃ c, (textsOf l)[k' + 2]? = some c :=
              ⟨_, List.getElem?_eq_getElem hi2⟩
            have hpart := findCandidate_none_first (textsOf l) _ (k' + 2) _ hfc hi2
              (by rw [textsOf_length]; omega) c hc
            have hti : (textsOf l)[k']? = some ((lowerStr (l.get ⟨k', hi⟩).text)) := by
              rw [textsOf_getElem?]; unfold textAt; rw [hcur]; rfl
            have hti1 : (textsOf l)[k' + 1]? = some ((lowerStr (l.get ⟨k' + 1, h⟩).text)) := by
              rw [textsOf_getElem?]; unfold textAt; rw [hnext]; rfl
            have hne1 : (lowerStr (l.get ⟨k' + 1, h⟩).text) ≠ (lowerStr (l.get ⟨k', hi⟩).text) := by
              intro heq
              exact nodup_getElem?_ne _ hnd k' (k' + 1) (by omega)
                (by rw [textsOf_length]; omega) (by rw [textsOf_length]; omega)
                (by rw [hti, hti1, heq])
            have hne2 : c ≠ (lowerStr (l.get ⟨k', hi⟩).text) := by
              intro heq
              exact nodup_getElem?_ne _ hnd k' (k' + 2) (by omega)
                (by rw [textsOf_length]; omega) hi2
                (by rw [hti, hc, heq])
            have hne3 : c ≠ (lowerStr (l.get ⟨k' + 1, h⟩).text) := by
              intro heq
              exact nodup_getElem?_ne _ hnd (k' + 1) (k' + 2) (by omega)
                (by rw [textsOf_length]; omega) hi2
                (by rw [hti1, hc, heq])
            exact homophone_partner_unique hp hpart hne1 hne2 hne3
        · -- swap position i + 1 with the candidate j
          show adjacentHomophone (sepLoop (listSwap l (i + 1) j) (i + 1) f) k = false
          obtain ⟨hjlen, hjge, hjnp⟩ := findCandidate_some_spec (textsOf l) _ _ _ _ hfc
          rw [textsOf_length] at hjlen
          have hswlen : (listSwap l (i + 1) j).length = l.length := listSwap_length l _ _
          have hndsw : (textsOf (listSwap l (i + 1) j)).Nodup := by
            rw [textsOf_listSwap]
            exact listSwap_nodup _ _ _ (by rw [textsOf_length]; omega)
              (by rw [textsOf_length]; omega) hnd
          refine ih (listSwap l (i + 1) j) (i + 1) hndsw (by rw [hswlen]; omega) ?_
            k (by rw [hswlen]; omega)
          intro k' hk' hk2'
          rw [hswlen] at hk2'
          rcases Nat.lt_or_ge k' i with hki | hki
          · have e1 : textAt (listSwap l (i + 1) j) k' = textAt l k' :=
              textAt_listSwap_of_ne l _ _ k' (by omega) (by omega)
            have e2 : textAt (listSwap l (i + 1) j) (k' + 1) = textAt l (k' + 1) :=
              textAt_listSwap_of_ne l _ _ (k' + 1) (by omega) (by omega)
            unfold adjacentHomophone
            rw [e1, e2]
            have hres := hprev k' hki hk2'
            unfold adjacentHomophone at hres
            exact hres
          · have hke : k' = i := by omega
            subst hke
            have e1 : textAt (listSwap l (k' + 1) j) k' = textAt l k' :=
              textAt_listSwap_of_ne l _ _ k' (by omega) (by omega)
            have e2 : textAt (listSwap l (k' + 1) j) (k' + 1) = textAt l j :=
              textAt_listSwap_fst l (k' + 1) j h hjlen
            obtain ⟨wj, hwj⟩ : ∃ wj, l[j]? = some wj :=
              ⟨_, List.getElem?_eq_getElem hjlen⟩
            have hcnp : isHomophonePair ((lowerStr (l.get ⟨k', hi⟩).text))
                ((lowerStr wj.text)) = false := by
              apply hjnp
              rw [textsOf_getElem?]; unfold textAt; rw [hwj]; rfl
            unfold adjacentHomophone
            rw [e1, e2]
            unfold textAt
            rw [hcur, hwj]
            exact hcnp
      · rw [if_neg hp]
        refine ih l (i + 1) hnd (by omega) ?_ k hk
        intro k' hk' hk2'
        rcases Nat.lt_or_ge k' i with hki | hki
        · exact hprev k' hki hk2'
        · have hke : k' = i := by omega
          subst hke
          rw [adjacentHomophone_eq l k' _ _ hcur hnext]
          exact Bool.eq_false_iff.mpr hp
    · rw [dif_neg h]
      exact hprev k (by omega) hk

/-- Claim C6 (amended): for every input word sequence whose lower-cased
texts are pairwise distinct, after the `separateHomophones` pass no two
members of a known homophone pair occupy adjacent positions, except
possibly in the final two positions of the queue (the pass only relocates
forward, so a collision reaching the last pair has nowhere to go);
sequences of fewer than 2 elements are returned unchanged. -/
theorem separateHomophones_nonadjacent (queue : List Word)
    (hnd : (textsOf queue).Nodup) :
    (∀ k, k + 2 < queue.length →
      adjacentHomophone (separateHomophones queue) k = false) ∧
    (queue.length < 2 → separateHomophones queue = queue) := by
  constructor
  · intro k hk
    unfold separateHomophones
    by_cases h2 : queue.length < 2
    · omega
    · rw [if_neg h2]
      exact sepLoop_nonadjacent queue.length queue 0 hnd (by omega)
        (fun k' hk' _ => absurd hk' (Nat.not_lt_zero k')) k hk
  · intro h2
    unfold separateHomophones
    rw [if_pos h2]

/-- Concrete instance of `separateHomophones_nonadjacent`: on the queue
there, their, cat the pass moves "cat" between the two homophones, so
positions 0 and 1 are no longer a homophone pair. -/
theorem separateHomophones_nonadjacent_witness :
    adjacentHomophone (separateHomophones
      [⟨1, "there", true⟩, ⟨2, "their", true⟩, ⟨3, "cat", true⟩]) 0 = false :=
  (separateHomophones_nonadjacent
    [⟨1, "there", true⟩, ⟨2, "their", true⟩, ⟨3, "cat", true⟩] (by decide)).1
    0 (by decide)

/-- Claim C6 counterexample: on the queue cat, to, two the pass returns
the queue unchanged, leaving the homophone pair to/two adjacent in the
final two positions, although the permutation to, cat, two of the same
words has no adjacent homophones -- so non-adjacency was not impossible
for this input. -/
theorem separateHomophones_leaves_tail_pair :
    adjacentHomophone (separateHomophones
      [⟨1, "cat", true⟩, ⟨2, "to", true⟩, ⟨3, "two", true⟩]) 1 = true ∧
    [(⟨2, "to", true⟩ : Word), ⟨1, "cat", true⟩, ⟨3, "two", true⟩].Perm
      [⟨1, "cat", true⟩, ⟨2, "to", true⟩, ⟨3, "two", true⟩] ∧
    ∀ k, adjacentHomophone
      [(⟨2, "to", true⟩ : Word), ⟨1, "cat", true⟩, ⟨3, "two", true⟩] k = false := by
  refine ⟨by decide, by decide, fun k => ?_⟩
  match k with
  | 0 => decide
  | 1 => decide
  | 2 => decide
  | n + 3 => rfl

/- ----- Session state machine: basic lemmas ----- -/

theorem foldl_append_singleton_eq_map {α β : Type} (f : α → β) (l : List α) :
    ∀ acc : List β, l.foldl (fun ops a => ops ++ [f a]) acc = acc ++ l.map f := by
  induction l with
  | nil => intro acc; simp
  | cons x xs ih => intro acc; simp [List.foldl_cons, ih, List.append_assoc]

theorem finalize_eq_map (st : QuizState) :
    finalizeQueuePositions st = st.completedWords.map (fun completedWord =>
      if completedWord.id ∈ st.missedWords ∨ completedWord.word ∈ st.missedReading then
        StoreOp.moveToPosition completedWord.id st.quizLength
      else if completedWord.firstTry = false then
        StoreOp.moveToPosition completedWord.id st.quizLength
      else
        StoreOp.moveToBack completedWord.id) := by
  unfold finalizeQueuePositions
  rw [foldl_append_singleton_eq_map]
  rfl

theorem renderStep_frame (shuffle : List CompletedWord → List CompletedWord)
    (s : QuizState) :
    (renderStep shuffle s).completedCount = s.completedCount ∧
    (renderStep shuffle s).quizLength = s.quizLength ∧
    (renderStep shuffle s).completedWords = s.completedWords ∧
    (renderStep shuffle s).missedWords = s.missedWords ∧
    (renderStep shuffle s).missedReading = s.missedReading ∧
    (renderStep shuffle s).totalErrors = s.totalErrors ∧
    (renderStep shuffle s).exiting = s.exiting := by
  unfold renderStep
  split
  · exact ⟨rfl, rfl, rfl, rfl, rfl, rfl, rfl⟩
  · split <;> exact ⟨rfl, rfl, rfl, rfl, rfl, rfl, rfl⟩

theorem renderStep_phase (shuffle : List CompletedWord → List CompletedWord)
    (s : QuizState) :
    (renderStep shuffle s).phase =
      if s.completedCount ≥ s.quizLength then .reading else s.phase := by
  unfold renderStep
  split
  · simp_all
  · split <;> simp_all

theorem completeQuizWordCore_frame (w : Word) (e : Nat) (st : QuizState) :
    (completeQuizWordCore w e st).1.currentWord = st.currentWord ∧
    (completeQuizWordCore w e st).1.quizLength = st.quizLength ∧
    (completeQuizWordCore w e st).1.phase = st.phase ∧
    (completeQuizWordCore w e st).1.readingQueue = st.readingQueue ∧
    (completeQuizWordCore w e st).1.readingIndex = st.readingIndex ∧
    (completeQuizWordCore w e st).1.readingResults = st.readingResults ∧
    (completeQuizWordCore w e st).1.missedReading = st.missedReading ∧
    (completeQuizWordCore w e st).1.exiting = st.exiting := by
  unfold completeQuizWordCore
  dsimp only
  repeat' split
  all_goals exact ⟨rfl, rfl, rfl, rfl, rfl, rfl, rfl, rfl⟩

theorem completeQuizWordCore_completedCount (w : Word) (e : Nat) (st : QuizState) :
    (completeQuizWordCore w e st).1.completedCount =
      if e > 0 then st.completedCount else st.completedCount + 1 := by
  unfold completeQuizWordCore
  dsimp only
  by_cases he : e > 0 <;>
    simp only [he, ite_true, ite_false] <;>
    (try (split <;> rfl)) <;> (try rfl)

theorem completeQuizWordCore_completedWords (w : Word) (e : Nat) (st : QuizState) :
    (completeQuizWordCore w e st).1.completedWords =
      if e > 0 then st.completedWords
      else st.completedWords ++ [⟨w.id, w.text, !decide (w.id ∈ st.missedWords)⟩] := by
  unfold completeQuizWordCore
  dsimp only
  by_cases he : e > 0 <;>
    simp only [he, ite_true, ite_false] <;>
    (try (split <;> rfl)) <;> (try rfl)

theorem completeQuizWordCore_missedWords (w : Word) (e : Nat) (st : QuizState) :
    (completeQuizWordCore w e st).1.missedWords =
      if e > 0 then addToSet w.id st.missedWords else st.missedWords := by
  unfold completeQuizWordCore
  dsimp only
  by_cases he : e > 0 <;>
    simp only [he, ite_true, ite_false] <;>
    (try (split <;> rfl)) <;> (try rfl)

theorem completeQuizWordCore_ops (w : Word) (e : Nat) (st : QuizState) :
    (completeQuizWordCore w e st).2 =
      (if w.drilled then [] else [StoreOp.markDrilled w.id]) ++
        [StoreOp.recordAttempt w.id (decide ¬(e > 0))] := rfl

theorem readingStep_frame (b : Bool) (st : QuizState) :
    (readingStep b st).1.currentWord = st.currentWord ∧
    (readingStep b st).1.quizQueue = st.quizQueue ∧
    (readingStep b st).1.quizLength = st.quizLength ∧
    (readingStep b st).1.completedCount = st.completedCount ∧
    (readingStep b st).1.completedWords = st.completedWords ∧
    (readingStep b st).1.missedWords = st.missedWords ∧
    (readingStep b st).1.totalErrors = st.totalErrors ∧
    (readingStep b st).1.exiting = st.exiting := by
  unfold readingStep
  split
  · exact ⟨rfl, rfl, rfl, rfl, rfl, rfl, rfl, rfl⟩
  · dsimp only
    split <;> split <;> exact ⟨rfl, rfl, rfl, rfl, rfl, rfl, rfl, rfl⟩

theorem readingStep_ops (b : Bool) (st : QuizState) :
    (readingStep b st).2 = [] ∨
      ∃ cw, st.readingQueue[st.readingIndex]? = some cw ∧
        (readingStep b st).2 = [StoreOp.recordSightRead cw.id b] := by
  unfold readingStep
  rcases h : st.readingQueue[st.readingIndex]? with _ | cw
  · exact Or.inl rfl
  · refine Or.inr ⟨cw, rfl, ?_⟩
    dsimp only
    repeat' split
    all_goals rfl

theorem runSteps_cons (shuffle : List CompletedWord → List CompletedWord)
    (st : QuizState) (ev : Event) (evs : List Event) :
    runSteps shuffle st (ev :: evs) =
      ((runSteps shuffle (step shuffle st ev).1 evs).1,
        (step shuffle st ev).2 ++ (runSteps shuffle (step shuffle st ev).1 evs).2) := rfl

theorem runSteps_append (shuffle : List CompletedWord → List CompletedWord)
    (evs1 evs2 : List Event) :
    ∀ st : QuizState,
      runSteps shuffle st (evs1 ++ evs2) =
        ((runSteps shuffle (runSteps shuffle st evs1).1 evs2).1,
          (runSteps shuffle st evs1).2 ++
            (runSteps shuffle (runSteps shuffle st evs1).1 evs2).2) := by
  induction evs1 with
  | nil => intro st; simp [runSteps]
  | cons ev evs ih =>
    intro st
    rw [List.cons_append, runSteps_cons, runSteps_cons, ih]
    simp [List.append_assoc]

theorem runSteps_invariant (shuffle : List CompletedWord → List CompletedWord)
    (Q : QuizState → List StoreOp → Prop)
    (hstep : ∀ st ev log, Q st log →
      Q (step shuffle st ev).1 (log ++ (step shuffle st ev).2)) :
    ∀ (evs : List Event) (st : QuizState) (log : List StoreOp),
      Q st log → Q (runSteps shuffle st evs).1 (log ++ (runSteps shuffle st evs).2) := by
  intro evs
  induction evs with
  | nil => intro st log h; simpa [runSteps] using h
  | cons ev evs ih =>
    intro st log h
    rw [runSteps_cons]
    have := ih (step shuffle st ev).1 (log ++ (step shuffle st ev).2) (hstep st ev log h)
    simpa [List.append_assoc] using this

/- ----- Deferred reorder policy (C1) and retry placement (C2) ----- -/

/-- Claim C1: for every word completed in a full session, the queue write
computed by `finalizeQueuePositions` follows the spec's rule order: a
word missed during spelling (id in `missedWords`) or during reading (text
in `missedReading`) is moved to position `quizLength` (the targetCount);
otherwise a word whose `firstTry` flag is false is also moved to position
`quizLength`; otherwise -- perfect first-try spelling, never missed in
reading -- it is moved to the back of the entire queue. -/
theorem finalize_follows_rule_order (st : QuizState) :
    finalizeQueuePositions st = st.completedWords.map (fun completedWord =>
      if completedWord.id ∈ st.missedWords ∨ completedWord.word ∈ st.missedReading then
        StoreOp.moveToPosition completedWord.id st.quizLength
      else if completedWord.firstTry = false then
        StoreOp.moveToPosition completedWord.id st.quizLength
      else
        StoreOp.moveToBack completedWord.id) ∧
    (∀ (k : Nat) (cw : CompletedWord), st.completedWords[k]? = some cw →
      (finalizeQueuePositions st)[k]? =
        some (if cw.id ∈ st.missedWords ∨ cw.word ∈ st.missedReading then
          StoreOp.moveToPosition cw.id st.quizLength
        else if cw.firstTry = false then
          StoreOp.moveToPosition cw.id st.quizLength
        else
          StoreOp.moveToBack cw.id)) := by
  refine ⟨finalize_eq_map st, ?_⟩
  intro k cw hk
  rw [finalize_eq_map st, List.getElem?_map, hk]
  rfl

/-- Concrete instance of `finalize_follows_rule_order`: in a finished
session where word 1 was perfect on first try and never misread while
word 2 was missed, word 1 is moved to the back and word 2 to position
`quizLength` = 3. -/
theorem finalize_follows_rule_order_witness :
    (finalizeQueuePositions ⟨none, [], 3, 2, [⟨1, "cat", true⟩, ⟨2, "dog", false⟩],
        2, [2], .complete, [], 0, [], [], false⟩)[0]? =
      some (StoreOp.moveToBack 1) ∧
    (finalizeQueuePositions ⟨none, [], 3, 2, [⟨1, "cat", true⟩, ⟨2, "dog", false⟩],
        2, [2], .complete, [], 0, [], [], false⟩)[1]? =
      some (StoreOp.moveToPosition 2 3) := by
  refine ⟨?_, ?_⟩
  · exact ((finalize_follows_rule_order _).2 0 ⟨1, "cat", true⟩ (by decide)).trans
      (by decide)
  · exact ((finalize_follows_rule_order _).2 1 ⟨2, "dog", false⟩ (by decide)).trans
      (by decide)

/-- Claim C2: a word whose spelling attempt had at least one error is
reinserted into the in-memory `quizQueue` exactly two positions from the
front -- the next word is placed first, then the failed word (whose local
`drilled` copy is now true) -- so exactly one intervening word is tested
before the retry; if the queue has no next word the failed word becomes
the whole remaining queue.  The failed attempt does not count the word as
mastered: neither `completedCount` nor `completedWords` changes. -/
theorem failed_word_requeued_two_from_front (w : Word) (errorCount : Nat)
    (st : QuizState) (herr : errorCount > 0) :
    ((completeQuizWordCore w errorCount st).1.quizQueue =
      match st.quizQueue with
      | [] => [{ w with drilled := true }]
      | nextWord :: rest => nextWord :: { w with drilled := true } :: rest) ∧
    (st.quizQueue ≠ [] →
      (completeQuizWordCore w errorCount st).1.quizQueue[1]? =
        some { w with drilled := true }) ∧
    (completeQuizWordCore w errorCount st).1.completedCount = st.completedCount ∧
    (completeQuizWordCore w errorCount st).1.completedWords = st.completedWords := by
  have hq : (completeQuizWordCore w errorCount st).1.quizQueue =
      match st.quizQueue with
      | [] => [{ w with drilled := true }]
      | nextWord :: rest => nextWord :: { w with drilled := true } :: rest := by
    unfold completeQuizWordCore
    dsimp only
    simp only [herr, ite_true]
    rcases hqq : st.quizQueue with _ | ⟨nextWord, rest⟩ <;> rfl
  refine ⟨hq, ?_, ?_, ?_⟩
  · intro hne
    rw [hq]
    rcases hqq : st.quizQueue with _ | ⟨nextWord, rest⟩
    · exact absurd hqq hne
    · simp
  · rw [completeQuizWordCore_completedCount, if_pos herr]
  · rw [completeQuizWordCore_completedWords, if_pos herr]

/-- Concrete instance of `failed_word_requeued_two_from_front`: in a
two-word session, failing "cat" once places "dog" in front of the
retried "cat" and leaves the mastered count at 0. -/
theorem failed_word_requeued_two_from_front_witness :
    (completeQuizWordCore ⟨1, "cat", false⟩ 1
      (initSession id [⟨1, "cat", false⟩, ⟨2, "dog", true⟩] 2)).1.quizQueue =
        [⟨2, "dog", true⟩, ⟨1, "cat", true⟩] ∧
    (completeQuizWordCore ⟨1, "cat", false⟩ 1
      (initSession id [⟨1, "cat", false⟩, ⟨2, "dog", true⟩] 2)).1.completedCount = 0 := by
  have h := failed_word_requeued_two_from_front ⟨1, "cat", false⟩ 1
    (initSession id [⟨1, "cat", false⟩, ⟨2, "dog", true⟩] 2) (by decide)
  exact ⟨h.1.trans (by decide), h.2.2.1.trans (by decide)⟩

/- ----- Mastery count (C5) ----- -/

theorem readingStep_phase (b : Bool) (st : QuizState) :
    (readingStep b st).1.phase = st.phase ∨ (readingStep b st).1.phase = .complete := by
  unfold readingStep
  split
  · exact Or.inl rfl
  · dsimp only
    split <;> split <;> first | exact Or.inr rfl | exact Or.inl rfl

theorem renderStep_spelling_bound (shuffle : List CompletedWord → List CompletedWord)
    (s : QuizState) :
    (renderStep shuffle s).phase = .spelling →
      (renderStep shuffle s).completedCount < (renderStep shuffle s).quizLength := by
  unfold renderStep
  split
  · intro h; exact absurd h (by simp)
  · rename_i hlt
    split <;> intro _ <;> (show s.completedCount < s.quizLength) <;> omega

theorem step_completedCount_cases (shuffle : List CompletedWord → List CompletedWord)
    (st : QuizState) (ev : Event) :
    (step shuffle st ev).1.completedCount = st.completedCount ∨
      (step shuffle st ev).1.completedCount = st.completedCount + 1 := by
  unfold step
  cases ev with
    | exitPressed => dsimp only; split <;> exact Or.inl rfl
    | spellComplete e =>
      dsimp only
      split
      all_goals try exact Or.inl rfl
      unfold completeQuizWord
      dsimp only
      rw [(renderStep_frame shuffle _).1, completeQuizWordCore_completedCount]
      by_cases he : e > 0
      · rw [if_pos he]; exact Or.inl rfl
      · rw [if_neg he]; exact Or.inr rfl
    | readGotIt =>
      dsimp only
      split
      · exact Or.inl (readingStep_frame true st).2.2.2.1
      · exact Or.inl rfl
    | readMissed =>
      dsimp only
      split
      · exact Or.inl (readingStep_frame false st).2.2.2.1
      · exact Or.inl rfl
    | donePressed => dsimp only; split <;> exact Or.inl rfl

theorem step_completedCount_succ_iff (shuffle : List CompletedWord → List CompletedWord)
    (st : QuizState) (ev : Event) :
    (step shuffle st ev).1.completedCount = st.completedCount + 1 ↔
      st.phase = .spelling ∧ st.currentWord.isSome ∧ ev = .spellComplete 0 := by
  have hconst : ∀ h : st.completedCount = st.completedCount + 1, False := by omega
  unfold step
  cases ev with
    | exitPressed =>
      dsimp only
      split <;>
        (constructor
         · intro h; exact absurd h hconst
         · rintro ⟨-, -, hh⟩; exact Event.noConfusion hh)
    | readGotIt =>
      dsimp only
      split
      · rw [(readingStep_frame true st).2.2.2.1]
        constructor
        · intro h; exact absurd h hconst
        · rintro ⟨-, -, hh⟩; exact Event.noConfusion hh
      · constructor
        · intro h; exact absurd h hconst
        · rintro ⟨-, -, hh⟩; exact Event.noConfusion hh
    | readMissed =>
      dsimp only
      split
      · rw [(readingStep_frame false st).2.2.2.1]
        constructor
        · intro h; exact absurd h hconst
        · rintro ⟨-, -, hh⟩; exact Event.noConfusion hh
      · constructor
        · intro h; exact absurd h hconst
        · rintro ⟨-, -, hh⟩; exact Event.noConfusion hh
    | donePressed =>
      dsimp only
      split <;>
        (constructor
         · intro h; exact absurd h hconst
         · rintro ⟨-, -, hh⟩; exact Event.noConfusion hh)
    | spellComplete e =>
      dsimp only
      rcases hph : st.phase <;> rcases hcw : st.currentWord with _ | w <;> dsimp only
      · constructor
        · intro h; exact absurd h hconst
        · rintro ⟨-, hsome, -⟩
          exact Bool.noConfusion hsome
      · unfold completeQuizWord
        dsimp only
        rw [(renderStep_frame shuffle _).1, completeQuizWordCore_completedCount]
        by_cases he : e > 0
        · rw [if_pos he]
          constructor
          · intro h; exact absurd h hconst
          · rintro ⟨-, -, hh⟩
            injection hh with he0
            omega
        · rw [if_neg he]
          have he0 : e = 0 := by omega
          subst he0
          simp
      all_goals
        constructor
        · intro h; exact absurd h hconst
        · rintro ⟨hph', -, -⟩
          exact Phase.noConfusion hph'

theorem step_preserves_spelling_bound
    (shuffle : List CompletedWord → List CompletedWord) (st : QuizState) (ev : Event)
    (h : st.phase = .spelling → st.completedCount < st.quizLength) :
    (step shuffle st ev).1.phase = .spelling →
      (step shuffle st ev).1.completedCount < (step shuffle st ev).1.quizLength := by
  unfold step
  cases ev with
    | exitPressed => dsimp only; split <;> exact h
    | spellComplete e =>
      dsimp only
      split
      all_goals try exact h
      unfold completeQuizWord
      dsimp only
      exact renderStep_spelling_bound shuffle _
    | readGotIt =>
      dsimp only
      split
      · rename_i hread
        intro hsp
        rcases readingStep_phase true st with hsame | hcomp
        · rw [hsame] at hsp; rw [hread] at hsp; exact absurd hsp (by simp)
        · rw [hcomp] at hsp; exact absurd hsp (by simp)
      · exact h
    | readMissed =>
      dsimp only
      split
      · rename_i hread
        intro hsp
        rcases readingStep_phase false st with hsame | hcomp
        · rw [hsame] at hsp; rw [hread] at hsp; exact absurd hsp (by simp)
        · rw [hcomp] at hsp; exact absurd hsp (by simp)
      · exact h
    | donePressed => dsimp only; split <;> exact h

theorem runSteps_spelling_bound (shuffle : List CompletedWord → List CompletedWord)
    (allWords : List Word) (quizLength : Nat) (evs : List Event) :
    (runSteps shuffle (initSession shuffle allWords quizLength) evs).1.phase = .spelling →
      (runSteps shuffle (initSession shuffle allWords quizLength) evs).1.completedCount <
        (runSteps shuffle (initSession shuffle allWords quizLength) evs).1.quizLength := by
  have hrun := runSteps_invariant shuffle
    (fun s _ => s.phase = .spelling → s.completedCount < s.quizLength)
    (fun st ev log hst => step_preserves_spelling_bound shuffle st ev hst)
    evs (initSession shuffle allWords quizLength) []
    (renderStep_spelling_bound shuffle _)
  exact hrun

theorem step_spelling_exit_iff (shuffle : List CompletedWord → List CompletedWord)
    (st : QuizState) (ev : Event) (hph : st.phase = .spelling)
    (hlt : st.completedCount < st.quizLength) :
    ((step shuffle st ev).1.phase ≠ .spelling ↔
      (step shuffle st ev).1.completedCount = st.quizLength) := by
  have hsame : st.phase ≠ .spelling ↔ st.completedCount = st.quizLength :=
    ⟨fun h => absurd hph h, fun h => absurd h (by omega)⟩
  unfold step
  cases ev with
  | exitPressed =>
    dsimp only
    rw [if_pos (Or.inl hph)]
    exact hsame
  | readGotIt =>
    dsimp only
    rw [if_neg (by rw [hph]; exact fun hh => Phase.noConfusion hh)]
    exact hsame
  | readMissed =>
    dsimp only
    rw [if_neg (by rw [hph]; exact fun hh => Phase.noConfusion hh)]
    exact hsame
  | donePressed =>
    dsimp only
    rw [if_neg (by rw [hph]; exact fun hh => Phase.noConfusion hh)]
    exact hsame
  | spellComplete e =>
    dsimp only
    rw [hph]
    rcases hcw : st.currentWord with _ | w <;> dsimp only
    · exact hsame
    · unfold completeQuizWord
      dsimp only
      rw [renderStep_phase, (renderStep_frame shuffle _).1,
        (completeQuizWordCore_frame w e st).2.1, (completeQuizWordCore_frame w e st).2.2.1,
        hph, completeQuizWordCore_completedCount]
      by_cases he : e > 0
      · rw [if_pos he, if_neg (by omega)]
        constructor
        · intro h; exact absurd rfl h
        · intro h; exact absurd h (by omega)
      · rw [if_neg he]
        by_cases hge : st.completedCount + 1 ≥ st.quizLength
        · rw [if_pos hge]
          constructor
          · intro _; omega
          · intro _ hcon; exact Phase.noConfusion hcon
        · rw [if_neg hge]
          constructor
          · intro h; exact absurd rfl h
          · intro h; exact absurd h (by omega)

/-- Claim C5: `completedCount` (the mastered count) never decreases and
changes by at most one per event; it increments by exactly one precisely
when the displayed word is completed with zero errors during the spelling
phase; in every state reachable from session start the spelling phase
maintains `completedCount < quizLength`; and from such a state the
spelling phase terminates (the phase leaves `spelling`) if and only if
`completedCount` reaches `quizLength` (the targetCount). -/
theorem masteredCount_monotone_and_termination :
    (∀ (shuffle : List CompletedWord → List CompletedWord) (st : QuizState) (ev : Event),
      st.completedCount ≤ (step shuffle st ev).1.completedCount) ∧
    (∀ (shuffle : List CompletedWord → List CompletedWord) (st : QuizState) (ev : Event),
      (step shuffle st ev).1.completedCount = st.completedCount ∨
        (step shuffle st ev).1.completedCount = st.completedCount + 1) ∧
    (∀ (shuffle : List CompletedWord → List CompletedWord) (st : QuizState) (ev : Event),
      (step shuffle st ev).1.completedCount = st.completedCount + 1 ↔
        st.phase = .spelling ∧ st.currentWord.isSome ∧ ev = .spellComplete 0) ∧
    (∀ (shuffle : List CompletedWord → List CompletedWord) (allWords : List Word)
        (quizLength : Nat) (evs : List Event),
      (runSteps shuffle (initSession shuffle allWords quizLength) evs).1.phase = .spelling →
        (runSteps shuffle (initSession shuffle allWords quizLength) evs).1.completedCount <
          (runSteps shuffle (initSession shuffle allWords quizLength) evs).1.quizLength) ∧
    (∀ (shuffle : List CompletedWord → List CompletedWord) (st : QuizState) (ev : Event),
      st.phase = .spelling → st.completedCount < st.quizLength →
      ((step shuffle st ev).1.phase ≠ .spelling ↔
        (step shuffle st ev).1.completedCount = st.quizLength)) := by
  refine ⟨?_, step_completedCount_cases, step_completedCount_succ_iff,
    runSteps_spelling_bound, step_spelling_exit_iff⟩
  intro shuffle st ev
  rcases step_completedCount_cases shuffle st ev with h | h <;> omega

/-- Concrete instance of `masteredCount_monotone_and_termination`: in a
one-word session, completing "cat" with zero errors ends the spelling
phase with the mastered count equal to the quiz length, and the count
went up by exactly one. -/
theorem masteredCount_monotone_and_termination_witness :
    ((step id (initSession id [⟨1, "cat", true⟩] 1) (.spellComplete 0)).1.phase ≠
        .spelling ↔
      (step id (initSession id [⟨1, "cat", true⟩] 1) (.spellComplete 0)).1.completedCount
        = 1) ∧
    ((step id (initSession id [⟨1, "cat", true⟩] 1) (.spellComplete 0)).1.completedCount =
        (initSession id [⟨1, "cat", true⟩] 1).completedCount + 1 ↔
      (initSession id [⟨1, "cat", true⟩] 1).phase = .spelling ∧
        (initSession id [⟨1, "cat", true⟩] 1).currentWord.isSome ∧
        (Event.spellComplete 0 : Event) = .spellComplete 0) := by
  exact ⟨masteredCount_monotone_and_termination.2.2.2.2 id _ _ (by decide) (by decide),
    masteredCount_monotone_and_termination.2.2.1 id _ _⟩

/- ----- Word queue store (C10) ----- -/

theorem insertByPos_length (w : StoreWord) (l : List StoreWord) :
    (insertByPos w l).length = l.length + 1 := by
  induction l with
  | nil => rfl
  | cons x xs ih =>
    unfold insertByPos
    split
    · rfl
    · simp [ih]

theorem sortByPos_length (st : List StoreWord) :
    (sortByPos st).length = st.length := by
  induction st with
  | nil => rfl
  | cons x xs ih =>
    unfold sortByPos at ih ⊢
    simp [List.foldr_cons, insertByPos_length, ih]

theorem normalizePositions_map_pos (st : List StoreWord) :
    (normalizePositions st).map (fun w => w.pos) = List.range st.length := by
  unfold normalizePositions
  rw [List.map_map]
  have hcomp : ((fun w : StoreWord => w.pos) ∘
      (fun p : Nat × StoreWord => { p.2 with pos := p.1 })) = Prod.fst := rfl
  rw [hcomp, List.enum_map_fst, sortByPos_length]

theorem shiftDown_ne_target (cur target p : Nat)
    (hct : cur < target) (hp : p ≠ cur) : shiftDown cur target p ≠ target := by
  unfold shiftDown
  split <;> omega

theorem shiftDown_inj (cur target p q : Nat) (hct : cur < target)
    (hp : p ≠ cur) (hq : q ≠ cur) (hpq : p ≠ q) :
    shiftDown cur target p ≠ shiftDown cur target q := by
  unfold shiftDown
  split <;> split <;> omega

theorem shiftUp_ne_target (cur target p : Nat)
    (hct : target < cur) (hp : p ≠ cur) : shiftUp cur target p ≠ target := by
  unfold shiftUp
  split <;> omega

theorem shiftUp_inj (cur target p q : Nat) (hct : target < cur)
    (hp : p ≠ cur) (hq : q ≠ cur) (hpq : p ≠ q) :
    shiftUp cur target p ≠ shiftUp cur target q := by
  unfold shiftUp
  split <;> split <;> omega

theorem createWord_positionsDistinct (newId : Nat) (st : List StoreWord)
    (hpos : positionsDistinct st) : positionsDistinct (createWord newId st) := by
  unfold positionsDistinct createWord
  rw [List.map_append, List.map_map]
  have hcomp : ((fun w : StoreWord => w.pos) ∘
      (fun w : StoreWord => { w with pos := w.pos + 1 })) =
      (fun n => n + 1) ∘ (fun w : StoreWord => w.pos) := rfl
  rw [hcomp, ← List.map_map]
  apply List.nodup_append.mpr
  refine ⟨hpos.map (fun a b hab => by omega), by simp, ?_⟩
  intro a ha
  simp only [List.mem_map] at ha
  obtain ⟨n, -, rfl⟩ := ha
  simp

theorem moveWordToBack_normalizes (wordId : Nat) (st : List StoreWord)
    (w : StoreWord) (h : st.find? (fun x => x.id == wordId) = some w) :
    (moveWordToBack wordId st).map (fun x => x.pos) = List.range st.length := by
  unfold moveWordToBack
  rw [h, normalizePositions_map_pos]
  simp

theorem moveWordToPosition_positionsDistinct (wordId : Nat) (t : Int)
    (st : List StoreWord) (hid : idsDistinct st) (hpos : positionsDistinct st) :
    positionsDistinct (moveWordToPosition wordId t st) := by
  unfold moveWordToPosition
  rcases hf : st.find? (fun x => x.id == wordId) with _ | word <;> rw [hf]
  · exact hpos
  · dsimp only
    have hwmem : word ∈ st := List.mem_of_find?_eq_some hf
    have hwid : word.id = wordId := by
      have := List.find?_some hf
      simpa using this
    have hposInj : ∀ a ∈ st, ∀ b ∈ st, a.pos = b.pos → a = b := fun a ha b hb hab =>
      List.inj_on_of_nodup_map hpos ha hb hab
    have hpair : st.Pairwise (fun a b => a.id ≠ b.id ∧ a.pos ≠ b.pos) :=
      (List.pairwise_map.mp hid).and (List.pairwise_map.mp hpos)
    have hnotcur : ∀ a ∈ st, a.id ≠ wordId → a.pos ≠ word.pos := by
      intro a ha hne heq
      exact hne (congrArg StoreWord.id (hposInj a ha word hwmem heq) |>.trans hwid)
    by_cases he : word.pos = (max 0 (min t ((st.length : Int) - 1))).toNat
    · rw [if_pos he]
      exact hpos
    · rw [if_neg he]
      by_cases hlt : word.pos < (max 0 (min t ((st.length : Int) - 1))).toNat
      · rw [if_pos hlt]
        unfold positionsDistinct
        rw [List.map_map, List.Nodup, List.pairwise_map]
        apply hpair.imp_of_mem
        intro a b ha hb ⟨hids, hposes⟩
        simp only [Function.comp]
        by_cases hA : a.id == wordId <;> by_cases hB : b.id == wordId <;>
          simp only [hA, hB, if_pos, if_neg, Bool.false_eq_true, ite_true, ite_false]
        · have ha' : a.id = wordId := by simpa using hA
          have hb' : b.id = wordId := by simpa using hB
          exact absurd (ha'.trans hb'.symm) hids
        · exact (shiftDown_ne_target word.pos _ b.pos hlt
            (hnotcur b hb (by simpa using hB))).symm
        · exact shiftDown_ne_target word.pos _ a.pos hlt
            (hnotcur a ha (by simpa using hA))
        · exact shiftDown_inj word.pos _ a.pos b.pos hlt
            (hnotcur a ha (by simpa using hA)) (hnotcur b hb (by simpa using hB)) hposes
      · rw [if_neg hlt]
        unfold positionsDistinct
        rw [List.map_map, List.Nodup, List.pairwise_map]
        apply hpair.imp_of_mem
        intro a b ha hb ⟨hids, hposes⟩
        simp only [Function.comp]
        by_cases hA : a.id == wordId <;> by_cases hB : b.id == wordId <;>
          simp only [hA, hB, if_pos, if_neg, Bool.false_eq_true, ite_true, ite_false]
        · have ha' : a.id = wordId := by simpa using hA
          have hb' : b.id = wordId := by simpa using hB
          exact absurd (ha'.trans hb'.symm) hids
        · exact (shiftUp_ne_target word.pos _ b.pos (by omega)
            (hnotcur b hb (by simpa using hB))).symm
        · exact shiftUp_ne_target word.pos _ a.pos (by omega)
            (hnotcur a ha (by simpa using hA))
        · exact shiftUp_inj word.pos _ a.pos b.pos (by omega)
            (hnotcur a ha (by simpa using hA)) (hnotcur b hb (by simpa using hB)) hposes

theorem moveWordToPosition_clamps (wordId : Nat) (t : Int)
    (st : List StoreWord) (w' : StoreWord) (hid : idsDistinct st)
    (hmem : w' ∈ moveWordToPosition wordId t st) (hwid : w'.id = wordId) :
    (w'.pos : Int) = max 0 (min t ((st.length : Int) - 1)) := by
  have hclamped : (0 : Int) ≤ max 0 (min t ((st.length : Int) - 1)) := le_max_left 0 _
  unfold moveWordToPosition at hmem
  rcases hf : st.find? (fun x => x.id == wordId) with _ | word <;> rw [hf] at hmem
  · exfalso
    have := List.find?_eq_none.mp hf w' hmem
    simp [hwid] at this
  · dsimp only at hmem
    have hwordid : word.id = wordId := by
      have := List.find?_some hf
      simpa using this
    have hwmem : word ∈ st := List.mem_of_find?_eq_some hf
    by_cases he : word.pos = (max 0 (min t ((st.length : Int) - 1))).toNat
    · rw [if_pos he] at hmem
      have hw' : w' = word :=
        List.inj_on_of_nodup_map hid hmem hwmem (hwid.trans hwordid.symm)
      rw [hw', he, Int.toNat_of_nonneg hclamped]
    · rw [if_neg he] at hmem
      by_cases hlt : word.pos < (max 0 (min t ((st.length : Int) - 1))).toNat <;>
        [rw [if_pos hlt] at hmem; rw [if_neg hlt] at hmem] <;>
      · simp only [List.mem_map] at hmem
        obtain ⟨a, ha, rfl⟩ := hmem
        by_cases hA : a.id == wordId
        · simp only [hA, ite_true]
          exact Int.toNat_of_nonneg hclamped
        · simp only [hA, Bool.false_eq_true, ite_false] at hwid
          exact absurd hwid (by simpa using hA)

/-- Claim C10 (amended): `createWord`, `moveWordToBack` and
`moveWordToPosition` all preserve distinctness of the `position` field
among a learner's non-deleted words, so positions still define a strict
ordering after each operation; `moveWordToBack` normalizes positions to
the contiguous range `0..n-1`; and `moveWordToPosition` clamps the
requested target position into `[0, n-1]`, but it is the only reorder
operation that does not normalize a non-contiguous store. -/
theorem queue_ops_preserve_position_order :
    (∀ (newId : Nat) (st : List StoreWord), positionsDistinct st →
      positionsDistinct (createWord newId st)) ∧
    (∀ (wordId : Nat) (st : List StoreWord) (w : StoreWord),
      st.find? (fun x => x.id == wordId) = some w →
      (moveWordToBack wordId st).map (fun x => x.pos) = List.range st.length) ∧
    (∀ (wordId : Nat) (t : Int) (st : List StoreWord),
      idsDistinct st → positionsDistinct st →
      positionsDistinct (moveWordToPosition wordId t st)) ∧
    (∀ (wordId : Nat) (t : Int) (st : List StoreWord) (w' : StoreWord),
      idsDistinct st → w' ∈ moveWordToPosition wordId t st → w'.id = wordId →
      (w'.pos : Int) = max 0 (min t ((st.length : Int) - 1))) :=
  ⟨createWord_positionsDistinct, moveWordToBack_normalizes,
    moveWordToPosition_positionsDistinct, moveWordToPosition_clamps⟩

/-- Concrete instance of `queue_ops_preserve_position_order`: insertion
at front keeps positions distinct, moving a word to the back of a gapped
store yields the contiguous positions 0, 1, a same-store positional move
keeps distinctness, and a request beyond the end is clamped to the last
index. -/
theorem queue_ops_preserve_position_order_witness :
    positionsDistinct (createWord 7 [⟨1, 0⟩, ⟨2, 1⟩]) ∧
    (moveWordToBack 1 [⟨1, 0⟩, ⟨2, 5⟩]).map (fun x => x.pos) = List.range 2 ∧
    positionsDistinct (moveWordToPosition 1 1 [⟨1, 0⟩, ⟨2, 1⟩]) ∧
    (((⟨1, 1⟩ : StoreWord).pos : Int) =
      max 0 (min 5 ((([⟨1, 0⟩, ⟨2, 1⟩] : List StoreWord).length : Int) - 1))) := by
  refine ⟨queue_ops_preserve_position_order.1 7 _ (by decide),
    queue_ops_preserve_position_order.2.1 1 _ ⟨1, 0⟩ (by decide),
    queue_ops_preserve_position_order.2.2.1 1 1 _ (by decide) (by decide),
    queue_ops_preserve_position_order.2.2.2 1 5 [⟨1, 0⟩, ⟨2, 1⟩] ⟨1, 1⟩
      (by decide) (by decide) rfl⟩

/-- Claim C10 counterexample: `moveWordToPosition` is a reorder operation
that does not normalize.  On a store with distinct but non-contiguous
positions 0 and 2, moving word 1 to position 1 leaves positions 1 and 2,
which is not a permutation of the contiguous range 0..1. -/
theorem moveWordToPosition_not_normalizing :
    positionsDistinct [(⟨1, 0⟩ : StoreWord), ⟨2, 2⟩] ∧
    (moveWordToPosition 1 1 [⟨1, 0⟩, ⟨2, 2⟩]).map (fun w => w.pos) = [1, 2] ∧
    ¬ ((moveWordToPosition 1 1 [⟨1, 0⟩, ⟨2, 2⟩]).map (fun w => w.pos)).Perm
        (List.range 2) := by
  exact ⟨by decide, by decide, by decide⟩

/- ----- First-try flag vs missed set: the defensive branch (C9) ----- -/

theorem mem_addToSet_of_mem {α : Type} [DecidableEq α] (x a : α) (s : List α)
    (h : a ∈ s) : a ∈ addToSet x s := by
  unfold addToSet
  split
  · exact h
  · exact List.mem_append_left _ h

theorem initSession_completedWords (shuffle : List CompletedWord → List CompletedWord)
    (allWords : List Word) (quizLength : Nat) :
    (initSession shuffle allWords quizLength).completedWords = [] := by
  unfold initSession
  rw [(renderStep_frame shuffle _).2.2.1]

theorem step_preserves_firstTry_missed
    (shuffle : List CompletedWord → List CompletedWord) (st : QuizState) (ev : Event)
    (hinv : ∀ cw ∈ st.completedWords, cw.firstTry = false → cw.id ∈ st.missedWords) :
    ∀ cw ∈ (step shuffle st ev).1.completedWords, cw.firstTry = false →
      cw.id ∈ (step shuffle st ev).1.missedWords := by
  unfold step
  cases ev with
    | exitPressed =>
      dsimp only
      split
      · exact hinv
      · exact hinv
    | donePressed =>
      dsimp only
      split <;> exact hinv
    | readGotIt =>
      dsimp only
      split
      · intro cw hmem hft
        rw [(readingStep_frame true st).2.2.2.2.1] at hmem
        rw [(readingStep_frame true st).2.2.2.2.2.1]
        exact hinv cw hmem hft
      · exact hinv
    | readMissed =>
      dsimp only
      split
      · intro cw hmem hft
        rw [(readingStep_frame false st).2.2.2.2.1] at hmem
        rw [(readingStep_frame false st).2.2.2.2.2.1]
        exact hinv cw hmem hft
      · exact hinv
    | spellComplete e =>
      dsimp only
      rcases hph : st.phase <;> rcases hcw : st.currentWord with _ | w <;> dsimp only
      · exact hinv
      · unfold completeQuizWord
        dsimp only
        intro cw hmem hft
        rw [(renderStep_frame shuffle _).2.2.1] at hmem
        rw [(renderStep_frame shuffle _).2.2.2.1]
        rw [completeQuizWordCore_completedWords] at hmem
        rw [completeQuizWordCore_missedWords]
        by_cases he : e > 0
        · rw [if_pos he] at hmem
          rw [if_pos he]
          exact mem_addToSet_of_mem _ _ _ (hinv cw hmem hft)
        · rw [if_neg he] at hmem
          rw [if_neg he]
          rcases List.mem_append.mp hmem with hold | hnew
          · exact hinv cw hold hft
          · have hcweq : cw = ⟨w.id, w.text, !decide (w.id ∈ st.missedWords)⟩ := by
              simpa using hnew
            subst hcweq
            have hft' : (!decide (w.id ∈ st.missedWords)) = false := hft
            rcases Bool.eq_false_or_eq_true (decide (w.id ∈ st.missedWords)) with hd | hd
            · exact of_decide_eq_true hd
            · rw [hd] at hft'
              exact absurd hft' (by decide)
      all_goals exact hinv

/-- Claim C9: in every reachable session state, a completed word whose
`firstTry` flag is false has its id in `missedWords` (the flag is
computed as the negation of `missedWords` membership at completion time,
and `missedWords` only grows); consequently the defensive second branch
of `finalizeQueuePositions` (`firstTry = false` without a spelling or
reading miss) is unreachable: on every reachable state the flush equals
the two-branch policy that omits it. -/
theorem defensive_branch_unreachable
    (shuffle : List CompletedWord → List CompletedWord) (allWords : List Word)
    (quizLength : Nat) (evs : List Event) :
    (∀ cw ∈ (runSteps shuffle (initSession shuffle allWords quizLength) evs).1.completedWords,
      cw.firstTry = false →
        cw.id ∈ (runSteps shuffle (initSession shuffle allWords quizLength) evs).1.missedWords) ∧
    finalizeQueuePositions (runSteps shuffle (initSession shuffle allWords quizLength) evs).1 =
      ((runSteps shuffle (initSession shuffle allWords quizLength) evs).1.completedWords).map
        (fun cw =>
          if cw.id ∈ (runSteps shuffle (initSession shuffle allWords quizLength) evs).1.missedWords ∨
              cw.word ∈ (runSteps shuffle (initSession shuffle allWords quizLength) evs).1.missedReading then
            StoreOp.moveToPosition cw.id
              (runSteps shuffle (initSession shuffle allWords quizLength) evs).1.quizLength
          else
            StoreOp.moveToBack cw.id) := by
  have hbase : ∀ cw ∈ (initSession shuffle allWords quizLength).completedWords,
      cw.firstTry = false → cw.id ∈ (initSession shuffle allWords quizLength).missedWords := by
    intro cw hmem hft
    rw [initSession_completedWords] at hmem
    exact absurd hmem (List.not_mem_nil cw)
  have hinv := runSteps_invariant shuffle
    (fun s _ => ∀ cw ∈ s.completedWords, cw.firstTry = false → cw.id ∈ s.missedWords)
    (fun st ev log h => step_preserves_firstTry_missed shuffle st ev h)
    evs (initSession shuffle allWords quizLength) [] hbase
  refine ⟨hinv, ?_⟩
  rw [finalize_eq_map]
  apply List.map_congr_left
  intro cw hmem
  by_cases h1 : cw.id ∈ (runSteps shuffle (initSession shuffle allWords quizLength) evs).1.missedWords ∨
      cw.word ∈ (runSteps shuffle (initSession shuffle allWords quizLength) evs).1.missedReading
  · rw [if_pos h1, if_pos h1]
  · rw [if_neg h1, if_neg h1]
    by_cases hft : cw.firstTry = false
    · exact absurd (Or.inl (hinv cw hmem hft)) h1
    · rw [if_neg hft]

/-- Concrete instance of `defensive_branch_unreachable`: a one-word
session in which "cat" is first misspelled and then spelled correctly
ends with `firstTry = false` for that word, its id in `missedWords`, and
a flush equal to the two-branch policy -- the run exercises the
non-first-try case without ever taking the defensive branch. -/
theorem defensive_branch_unreachable_witness :
    ((runSteps id (initSession id [⟨1, "cat", true⟩] 1)
        [.spellComplete 2, .spellComplete 0]).1.completedWords =
      [⟨1, "cat", false⟩]) ∧
    ((runSteps id (initSession id [⟨1, "cat", true⟩] 1)
        [.spellComplete 2, .spellComplete 0]).1.missedWords = [1]) ∧
    ((∀ cw ∈ (runSteps id (initSession id [⟨1, "cat", true⟩] 1)
        [.spellComplete 2, .spellComplete 0]).1.completedWords,
      cw.firstTry = false →
        cw.id ∈ (runSteps id (initSession id [⟨1, "cat", true⟩] 1)
          [.spellComplete 2, .spellComplete 0]).1.missedWords) ∧
    finalizeQueuePositions (runSteps id (initSession id [⟨1, "cat", true⟩] 1)
        [.spellComplete 2, .spellComplete 0]).1 =
      ((runSteps id (initSession id [⟨1, "cat", true⟩] 1)
          [.spellComplete 2, .spellComplete 0]).1.completedWords).map
        (fun cw =>
          if cw.id ∈ (runSteps id (initSession id [⟨1, "cat", true⟩] 1)
              [.spellComplete 2, .spellComplete 0]).1.missedWords ∨
              cw.word ∈ (runSteps id (initSession id [⟨1, "cat", true⟩] 1)
                [.spellComplete 2, .spellComplete 0]).1.missedReading then
            StoreOp.moveToPosition cw.id
              (runSteps id (initSession id [⟨1, "cat", true⟩] 1)
                [.spellComplete 2, .spellComplete 0]).1.quizLength
          else
            StoreOp.moveToBack cw.id)) := by
  refine ⟨by decide, by decide,
    defensive_branch_unreachable id [⟨1, "cat", true⟩] 1 [.spellComplete 2, .spellComplete 0]⟩

/- ----- Cancellation safety and the single deferred flush (C3) ----- -/

theorem step_move_ops_only_done (shuffle : List CompletedWord → List CompletedWord)
    (st : QuizState) (ev : Event) :
    ∀ op ∈ (step shuffle st ev).2, isMoveOp op = true →
      st.phase = .complete ∧ ev = .donePressed ∧
        (step shuffle st ev).2 = finalizeQueuePositions st := by
  unfold step
  cases ev with
    | exitPressed =>
      dsimp only
      split <;> (intro op hop; exact absurd hop (List.not_mem_nil op))
    | spellComplete e =>
      dsimp only
      rcases hph : st.phase <;> rcases hcw : st.currentWord with _ | w <;> dsimp only
      · intro op hop; exact absurd hop (List.not_mem_nil op)
      · intro op hop hmove
        exfalso
        have hop' : op ∈ (completeQuizWordCore w e st).2 := hop
        rw [completeQuizWordCore_ops] at hop'
        rcases List.mem_append.mp hop' with hdrill | hatt
        · rcases hdr : w.drilled with _ | _
          · rw [hdr] at hdrill
            simp only [Bool.false_eq_true, if_false, List.mem_singleton] at hdrill
            subst hdrill
            exact Bool.noConfusion hmove
          · rw [hdr] at hdrill
            simp only [if_true] at hdrill
            exact absurd hdrill (List.not_mem_nil op)
        · have : op = StoreOp.recordAttempt w.id (decide ¬(e > 0)) := by simpa using hatt
          subst this
          exact Bool.noConfusion hmove
      all_goals (intro op hop; exact absurd hop (List.not_mem_nil op))
    | readGotIt =>
      dsimp only
      split
      · intro op hop hmove
        exfalso
        rcases readingStep_ops true st with hnil | ⟨cw, -, hone⟩
        · rw [hnil] at hop; exact absurd hop (List.not_mem_nil op)
        · rw [hone] at hop
          have : op = StoreOp.recordSightRead cw.id true := by simpa using hop
          subst this
          exact Bool.noConfusion hmove
      · intro op hop; exact absurd hop (List.not_mem_nil op)
    | readMissed =>
      dsimp only
      split
      · intro op hop hmove
        exfalso
        rcases readingStep_ops false st with hnil | ⟨cw, -, hone⟩
        · rw [hnil] at hop; exact absurd hop (List.not_mem_nil op)
        · rw [hone] at hop
          have : op = StoreOp.recordSightRead cw.id false := by simpa using hop
          subst this
          exact Bool.noConfusion hmove
      · intro op hop; exact absurd hop (List.not_mem_nil op)
    | donePressed =>
      dsimp only
      split
      · rename_i hph
        intro op hop hmove
        exact ⟨hph, rfl, rfl⟩
      · intro op hop; exact absurd hop (List.not_mem_nil op)

theorem step_complete_phase (shuffle : List CompletedWord → List CompletedWord)
    (st : QuizState) (ev : Event) (h : st.phase = .complete) :
    (step shuffle st ev).1.phase = .complete := by
  unfold step
  cases ev with
    | exitPressed =>
      dsimp only
      rw [if_neg (by rw [h]; rintro (hc | hc) <;> exact Phase.noConfusion hc)]
      exact h
    | spellComplete e =>
      dsimp only
      rcases hph : st.phase <;> rcases hcw : st.currentWord with _ | w <;> dsimp only
      all_goals first
        | exact h
        | (rw [hph] at h; exact absurd h (by simp))
    | readGotIt =>
      dsimp only
      rw [if_neg (by rw [h]; exact fun hc => Phase.noConfusion hc)]
      exact h
    | readMissed =>
      dsimp only
      rw [if_neg (by rw [h]; exact fun hc => Phase.noConfusion hc)]
      exact h
    | donePressed =>
      dsimp only
      split <;> exact h

theorem runSteps_complete_phase (shuffle : List CompletedWord → List CompletedWord)
    (evs : List Event) :
    ∀ st : QuizState, st.phase = .complete →
      (runSteps shuffle st evs).1.phase = .complete := by
  induction evs with
  | nil => intro st h; exact h
  | cons ev evs ih =>
    intro st h
    rw [runSteps_cons]
    exact ih _ (step_complete_phase shuffle st ev h)

theorem step_move_filter_empty_of_not_complete
    (shuffle : List CompletedWord → List CompletedWord) (st : QuizState) (ev : Event)
    (h : st.phase ≠ .complete) : (step shuffle st ev).2.filter isMoveOp = [] := by
  rw [List.filter_eq_nil_iff]
  intro op hop hmove
  exact h (step_move_ops_only_done shuffle st ev op hop hmove).1

theorem step_move_filter_empty_of_not_done
    (shuffle : List CompletedWord → List CompletedWord) (st : QuizState) (ev : Event)
    (h : ev ≠ .donePressed) : (step shuffle st ev).2.filter isMoveOp = [] := by
  rw [List.filter_eq_nil_iff]
  intro op hop hmove
  exact h (step_move_ops_only_done shuffle st ev op hop hmove).2.1

theorem runSteps_move_filter_empty_of_no_done
    (shuffle : List CompletedWord → List CompletedWord) (evs : List Event)
    (h : ∀ ev ∈ evs, ev ≠ Event.donePressed) :
    ∀ st : QuizState, (runSteps shuffle st evs).2.filter isMoveOp = [] := by
  induction evs with
  | nil => intro st; rfl
  | cons ev evs ih =>
    intro st
    rw [runSteps_cons]
    dsimp only
    rw [List.filter_append,
      step_move_filter_empty_of_not_done shuffle st ev (h ev (List.mem_cons_self ev evs)),
      ih (fun e he => h e (List.mem_cons_of_mem ev he))]
    rfl

theorem runSteps_move_filter_empty_of_never_complete
    (shuffle : List CompletedWord → List CompletedWord) (evs : List Event) :
    ∀ st : QuizState, (runSteps shuffle st evs).1.phase ≠ .complete →
      (runSteps shuffle st evs).2.filter isMoveOp = [] := by
  induction evs with
  | nil => intro st _; rfl
  | cons ev evs ih =>
    intro st h
    rw [runSteps_cons] at h ⊢
    dsimp only at h ⊢
    have hstep : (step shuffle st ev).1.phase ≠ .complete := by
      intro hc
      exact h (runSteps_complete_phase shuffle evs _ hc)
    have hst : st.phase ≠ .complete := by
      intro hc
      exact hstep (step_complete_phase shuffle st ev hc)
    rw [List.filter_append, step_move_filter_empty_of_not_complete shuffle st ev hst,
      ih _ h]
    rfl

/-- Claim C3, amended: position writes occur only via
`finalizeQueuePositions`, triggered exactly by a done press on the
completion screen -- any move operation a step emits forces the phase to
be `complete`, the event to be the done press, and the step's output to
be exactly the flush; a script containing no done press, or one that
never reaches the completion screen, issues zero `moveWordToPosition` or
`moveWordToBack` calls; in a script with a single done press the
position writes of the whole session are those of that one step; and
every operation of the flush is a queue-position write.  Cancellation
via the exit flag, however, does NOT guarantee zero position writes (see
the counterexample): the flag is never checked by `completeQuizWord`,
`handleReadingResponse` or the done handler. -/
theorem deferred_flush_only_on_done :
    (∀ (shuffle : List CompletedWord → List CompletedWord) (st : QuizState) (ev : Event),
      ∀ op ∈ (step shuffle st ev).2, isMoveOp op = true →
        st.phase = .complete ∧ ev = .donePressed ∧
          (step shuffle st ev).2 = finalizeQueuePositions st) ∧
    (∀ (shuffle : List CompletedWord → List CompletedWord) (allWords : List Word)
        (quizLength : Nat) (evs : List Event),
      (∀ ev ∈ evs, ev ≠ Event.donePressed) →
        (runSteps shuffle (initSession shuffle allWords quizLength) evs).2.filter
          isMoveOp = []) ∧
    (∀ (shuffle : List CompletedWord → List CompletedWord) (allWords : List Word)
        (quizLength : Nat) (evs : List Event),
      (runSteps shuffle (initSession shuffle allWords quizLength) evs).1.phase ≠ .complete →
        (runSteps shuffle (initSession shuffle allWords quizLength) evs).2.filter
          isMoveOp = []) ∧
    (∀ (shuffle : List CompletedWord → List CompletedWord) (allWords : List Word)
        (quizLength : Nat) (evs1 evs2 : List Event),
      (∀ ev ∈ evs1, ev ≠ Event.donePressed) → (∀ ev ∈ evs2, ev ≠ Event.donePressed) →
        (runSteps shuffle (initSession shuffle allWords quizLength)
            (evs1 ++ Event.donePressed :: evs2)).2.filter isMoveOp =
          (step shuffle (runSteps shuffle (initSession shuffle allWords quizLength) evs1).1
            Event.donePressed).2.filter isMoveOp) ∧
    (∀ (shuffle : List CompletedWord → List CompletedWord) (st : QuizState),
      st.phase = .complete →
        (step shuffle st .donePressed).2 = finalizeQueuePositions st) ∧
    (∀ (st : QuizState) (op : StoreOp), op ∈ finalizeQueuePositions st →
      isMoveOp op = true) := by
  refine ⟨step_move_ops_only_done, ?_, ?_, ?_, ?_, ?_⟩
  · intro shuffle allWords quizLength evs h
    exact runSteps_move_filter_empty_of_no_done shuffle evs h _
  · intro shuffle allWords quizLength evs h
    exact runSteps_move_filter_empty_of_never_complete shuffle evs _ h
  · intro shuffle allWords quizLength evs1 evs2 h1 h2
    rw [runSteps_append, runSteps_cons]
    dsimp only
    rw [List.filter_append, List.filter_append,
      runSteps_move_filter_empty_of_no_done shuffle evs1 h1,
      runSteps_move_filter_empty_of_no_done shuffle evs2 h2]
    simp
  · intro shuffle st hph
    unfold step
    rw [if_pos hph]
  · intro st op hop
    rw [finalize_eq_map] at hop
    obtain ⟨cw, -, rfl⟩ := List.mem_map.mp hop
    split
    · rfl
    · split <;> rfl

/-- Concrete instance of `deferred_flush_only_on_done`: in a one-word
session, a done-free script (even one containing the exit press) yields
a log with no queue-position writes; a script exiting mid-reading also
yields none while the phase is not `complete`; and the whole position
output of a completed session is the single done step's flush, here one
`moveToBack`. -/
theorem deferred_flush_only_on_done_witness :
    ((runSteps id (initSession id [⟨1, "cat", true⟩] 1)
        [Event.spellComplete 0, Event.exitPressed, Event.readGotIt]).2.filter
      isMoveOp = []) ∧
    ((runSteps id (initSession id [⟨1, "cat", true⟩] 1)
        [Event.spellComplete 0, Event.exitPressed]).1.phase ≠ Phase.complete ∧
      (runSteps id (initSession id [⟨1, "cat", true⟩] 1)
        [Event.spellComplete 0, Event.exitPressed]).2.filter isMoveOp = []) ∧
    ((runSteps id (initSession id [⟨1, "cat", true⟩] 1)
        ([Event.spellComplete 0, Event.readGotIt] ++ Event.donePressed :: [])).2.filter
          isMoveOp =
      (step id (runSteps id (initSession id [⟨1, "cat", true⟩] 1)
          [Event.spellComplete 0, Event.readGotIt]).1 Event.donePressed).2.filter
        isMoveOp) ∧
    ((step id (runSteps id (initSession id [⟨1, "cat", true⟩] 1)
        [Event.spellComplete 0, Event.readGotIt]).1 Event.donePressed).2.filter
      isMoveOp = [StoreOp.moveToBack 1]) := by
  refine ⟨?_, ⟨by decide, ?_⟩, ?_, by decide⟩
  · exact deferred_flush_only_on_done.2.1 id [⟨1, "cat", true⟩] 1
      [Event.spellComplete 0, Event.exitPressed, Event.readGotIt] (by decide)
  · exact deferred_flush_only_on_done.2.2.1 id [⟨1, "cat", true⟩] 1
      [Event.spellComplete 0, Event.exitPressed] (by decide)
  · exact deferred_flush_only_on_done.2.2.2.1 id [⟨1, "cat", true⟩] 1
      [Event.spellComplete 0, Event.readGotIt] [] (by decide) (by decide)

/-- Claim C3 counterexample: cancellation does NOT guarantee zero
position writes.  The source never checks `state.exiting` in
`handleReadingResponse` or in the done handler, so pressing exit while
the final reading card's response is suspended (here serialized as the
exit event landing during the awaited `recordSightRead`, before the
response's state mutations) still lets the response complete, the
completion screen render with a live done button, and the done press
flush the positions: the cancelled one-word session below has
`exiting = true` from the reading phase on, yet its log contains the
`moveToBack` write. -/
theorem cancelled_session_still_flushes :
    ((runSteps id (initSession id [⟨1, "cat", true⟩] 1)
        [Event.spellComplete 0, Event.exitPressed]).1.exiting = true) ∧
    ((runSteps id (initSession id [⟨1, "cat", true⟩] 1)
        [Event.spellComplete 0, Event.exitPressed]).1.phase = Phase.reading) ∧
    ((runSteps id (initSession id [⟨1, "cat", true⟩] 1)
        [Event.spellComplete 0, Event.exitPressed, Event.readGotIt,
          Event.donePressed]).2.filter isMoveOp = [StoreOp.moveToBack 1]) := by
  exact ⟨by decide, by decide, by decide⟩

/- ----- Untaught words are never written (C8) ----- -/

theorem listSwap_nodup_any {α : Type} (l : List α) (i j : Nat) (hnd : l.Nodup) :
    (listSwap l i j).Nodup := by
  by_cases hi : i < l.length
  · by_cases hj : j < l.length
    · exact listSwap_nodup l i j hi hj hnd
    · unfold listSwap
      rw [List.getElem?_eq_none (Nat.le_of_not_lt hj)]
      rcases hgi : l[i]? with _ | a <;> exact hnd
  · unfold listSwap
    rw [List.getElem?_eq_none (Nat.le_of_not_lt hi)]
    exact hnd

theorem sepLoop_ids_nodup (fuel : Nat) :
    ∀ (l : List Word) (i : Nat), (l.map (fun w => w.id)).Nodup →
      ((sepLoop l i fuel).map (fun w => w.id)).Nodup := by
  induction fuel with
  | zero => intro l i h; exact h
  | succ f ih =>
    intro l i h
    rw [sepLoop]
    split
    · split
      · split
        · apply ih
          rw [listSwap_map]
          exact listSwap_nodup_any _ _ _ h
        · exact ih l _ h
      · exact ih l _ h
    · exact h

theorem separateHomophones_ids_nodup (queue : List Word)
    (h : (queue.map (fun w => w.id)).Nodup) :
    ((separateHomophones queue).map (fun w => w.id)).Nodup := by
  unfold separateHomophones
  split
  · exact h
  · exact sepLoop_ids_nodup _ _ _ h

theorem completeQuizWordCore_quizQueue (w : Word) (e : Nat) (st : QuizState) :
    (completeQuizWordCore w e st).1.quizQueue =
      if e > 0 then
        (match st.quizQueue with
         | [] => [{w with drilled := true}]
         | nextWord :: rest => nextWord :: {w with drilled := true} :: rest)
      else st.quizQueue := by
  unfold completeQuizWordCore
  dsimp only
  by_cases he : e > 0 <;>
    simp only [he, ite_true, ite_false] <;>
    (try (split <;> rfl)) <;> (try rfl)

theorem completeQuizWordCore_ops_id (w : Word) (e : Nat) (st : QuizState) :
    ∀ op ∈ (completeQuizWordCore w e st).2, opId op = w.id := by
  intro op hop
  rw [completeQuizWordCore_ops] at hop
  rcases List.mem_append.mp hop with h | h
  · rcases hd : w.drilled
    · rw [hd] at h
      simp only [Bool.false_eq_true, if_false, List.mem_singleton] at h
      subst h
      rfl
    · rw [hd] at h
      simp only [if_true] at h
      exact absurd h (List.not_mem_nil op)
  · have hh : op = StoreOp.recordAttempt w.id (decide ¬(e > 0)) := by simpa using h
    subst hh
    rfl

theorem renderStep_pendingWords_eq (shuffle : List CompletedWord → List CompletedWord)
    (s : QuizState) : pendingWords (renderStep shuffle s) = s.quizQueue := by
  unfold renderStep
  split
  · rfl
  · rcases hq : s.quizQueue with _ | ⟨w, rest⟩
    · unfold pendingWords
      dsimp only
      rfl
    · rfl

theorem renderStep_readingQueue_mem (shuffle : List CompletedWord → List CompletedWord)
    (hshuffle : ∀ l, ∀ x ∈ shuffle l, x ∈ l) (s : QuizState) (cw : CompletedWord)
    (h : cw ∈ (renderStep shuffle s).readingQueue) :
    cw ∈ s.readingQueue ∨ cw ∈ s.completedWords := by
  unfold renderStep at h
  split at h
  · dsimp only at h
    split at h
    · exact Or.inr (hshuffle _ _ h)
    · exact Or.inr h
  · rcases hq : s.quizQueue with _ | ⟨w, rest⟩
    · rw [hq] at h
      exact Or.inl h
    · rw [hq] at h
      exact Or.inl h

theorem readingStep_readingQueue_mem (b : Bool) (st : QuizState) (cw : CompletedWord)
    (h : cw ∈ (readingStep b st).1.readingQueue) : cw ∈ st.readingQueue := by
  unfold readingStep at h
  rcases hg : st.readingQueue[st.readingIndex]? with _ | cur
  · rw [hg] at h
    exact h
  · rw [hg] at h
    have hcur : cur ∈ st.readingQueue := by
      obtain ⟨hlt, rfl⟩ := List.getElem?_eq_some_iff.mp hg
      exact List.getElem_mem hlt
    rcases b with _ | _ <;> dsimp only at h <;>
      (repeat' split at h) <;>
      first
        | exact h
        | exact Or.elim ((List.mem_insertIdx (Nat.min_le_right _ _)).mp h)
            (fun heq => by rw [heq]; exact hcur) (fun h2 => h2)

theorem finalize_isMoveOp (st : QuizState) :
    ∀ op ∈ finalizeQueuePositions st, isMoveOp op = true := by
  rw [finalize_eq_map]
  intro op hop
  obtain ⟨cw, -, rfl⟩ := List.mem_map.mp hop
  split
  · rfl
  · split <;> rfl

theorem finalize_op_id (st : QuizState) :
    ∀ op ∈ finalizeQueuePositions st, ∃ cw ∈ st.completedWords, opId op = cw.id := by
  rw [finalize_eq_map]
  intro op hop
  obtain ⟨cw, hcw, rfl⟩ := List.mem_map.mp hop
  refine ⟨cw, hcw, ?_⟩
  split
  · rfl
  · split <;> rfl

theorem readingStep_preserves_SessInv (b : Bool) (st : QuizState) (log : List StoreOp)
    (hinv : SessInv st log) : SessInv (readingStep b st).1 (log ++ (readingStep b st).2) := by
  unfold SessInv at hinv ⊢
  obtain ⟨h1, h2, h3, h4⟩ := hinv
  have hpend : pendingWords (readingStep b st).1 = pendingWords st := by
    unfold pendingWords
    rw [(readingStep_frame b st).1, (readingStep_frame b st).2.1]
  have hcw : (readingStep b st).1.completedWords = st.completedWords :=
    (readingStep_frame b st).2.2.2.2.1
  refine ⟨?_, ?_, ?_, ?_⟩
  · rw [hpend]
    exact h1
  · rw [hcw, hpend]
    exact h2
  · intro cw hcwm w hw
    rw [hpend] at hw
    exact h3 cw (readingStep_readingQueue_mem b st cw hcwm) w hw
  · intro w hw hd op hop
    rw [hpend] at hw
    rcases List.mem_append.mp hop with hold | hnew
    · exact h4 w hw hd op hold
    · rcases readingStep_ops b st with hnil | ⟨cur, hcur, hone⟩
      · rw [hnil] at hnew
        exact absurd hnew (List.not_mem_nil op)
      · rw [hone] at hnew
        have hop' : op = StoreOp.recordSightRead cur.id b := by simpa using hnew
        subst hop'
        have hcur' : cur ∈ st.readingQueue := by
          obtain ⟨hlt, rfl⟩ := List.getElem?_eq_some_iff.mp hcur
          exact List.getElem_mem hlt
        exact h3 cur hcur' w hw

theorem step_preserves_SessInv (shuffle : List CompletedWord → List CompletedWord)
    (hshuffle : ∀ l, ∀ x ∈ shuffle l, x ∈ l) (st : QuizState) (ev : Event)
    (log : List StoreOp) (hinv : SessInv st log) :
    SessInv (step shuffle st ev).1 (log ++ (step shuffle st ev).2) := by
  unfold step
  cases ev with
    | exitPressed =>
      dsimp only
      split <;> (dsimp only; rw [List.append_nil]; exact hinv)
    | donePressed =>
      dsimp only
      split
      · dsimp only
        unfold SessInv at hinv ⊢
        obtain ⟨h1, h2, h3, h4⟩ := hinv
        refine ⟨h1, h2, h3, ?_⟩
        intro w hw hd op hop
        rcases List.mem_append.mp hop with hold | hnew
        · exact h4 w hw hd op hold
        · obtain ⟨cw, hcwm, hid⟩ := finalize_op_id st op hnew
          rw [hid]
          exact h2 cw hcwm w hw
      · dsimp only
        rw [List.append_nil]
        exact hinv
    | readGotIt =>
      dsimp only
      split
      · exact readingStep_preserves_SessInv true st log hinv
      · dsimp only
        rw [List.append_nil]
        exact hinv
    | readMissed =>
      dsimp only
      split
      · exact readingStep_preserves_SessInv false st log hinv
      · dsimp only
        rw [List.append_nil]
        exact hinv
    | spellComplete e =>
      dsimp only
      rcases hph : st.phase <;> rcases hcw0 : st.currentWord with _ | w0 <;> dsimp only
      · rw [List.append_nil]
        exact hinv
      · -- the spelling-phase completion of the displayed word
        unfold SessInv at hinv
        obtain ⟨h1, h2, h3, h4⟩ := hinv
        have hpw : pendingWords st = w0 :: st.quizQueue := by
          unfold pendingWords
          rw [hcw0]
          rfl
        have h1' : (w0.id ∉ st.quizQueue.map fun w => w.id) ∧
            (st.quizQueue.map fun w => w.id).Nodup := by
          rw [hpw] at h1
          simpa only [List.map_cons, List.nodup_cons] using h1
        have hqid : ∀ x ∈ st.quizQueue, x.id ≠ w0.id := fun x hx heq =>
          h1'.1 (heq ▸ List.mem_map_of_mem _ hx)
        have hqpend : ∀ x ∈ st.quizQueue, x ∈ pendingWords st := fun x hx => by
          rw [hpw]
          exact List.mem_cons_of_mem _ hx
        have hw0pend : w0 ∈ pendingWords st := by
          rw [hpw]
          exact List.mem_cons_self _ _
        unfold completeQuizWord
        dsimp only
        have hpend := renderStep_pendingWords_eq shuffle (completeQuizWordCore w0 e st).1
        have hrdq : (completeQuizWordCore w0 e st).1.readingQueue = st.readingQueue :=
          (completeQuizWordCore_frame w0 e st).2.2.2.1
        have hops := completeQuizWordCore_ops_id w0 e st
        unfold SessInv
        by_cases he : e > 0
        · have hqq : (completeQuizWordCore w0 e st).1.quizQueue =
              (match st.quizQueue with
               | [] => [{w0 with drilled := true}]
               | nextWord :: rest => nextWord :: {w0 with drilled := true} :: rest) := by
            rw [completeQuizWordCore_quizQueue, if_pos he]
          have hcwds : (completeQuizWordCore w0 e st).1.completedWords =
              st.completedWords := by
            rw [completeQuizWordCore_completedWords, if_pos he]
          have hmemq : ∀ x ∈ (completeQuizWordCore w0 e st).1.quizQueue,
              x = {w0 with drilled := true} ∨ x ∈ st.quizQueue := by
            rw [hqq]
            rcases hq : st.quizQueue with _ | ⟨n, rest⟩
            · intro x hx
              left
              simpa using hx
            · intro x hx
              rcases List.mem_cons.mp hx with rfl | hx2
              · right
                exact List.mem_cons_self _ _
              · rcases List.mem_cons.mp hx2 with rfl | hx3
                · left
                  rfl
                · right
                  exact List.mem_cons_of_mem _ hx3
          have hidsq : (((completeQuizWordCore w0 e st).1.quizQueue).map
              fun w => w.id).Nodup := by
            rw [hqq]
            rcases hq : st.quizQueue with _ | ⟨n, rest⟩
            · simp
            · have hsrc : (w0.id :: n.id :: rest.map fun w => w.id).Nodup := by
                rw [hpw, hq] at h1
                simpa only [List.map_cons] using h1
              simp only [List.map_cons]
              exact (List.Perm.swap n.id w0.id (rest.map fun w => w.id)).nodup hsrc
          refine ⟨?_, ?_, ?_, ?_⟩
          · rw [hpend]
            exact hidsq
          · intro cw hcwm w hw
            rw [(renderStep_frame shuffle _).2.2.1, hcwds] at hcwm
            rw [hpend] at hw
            rcases hmemq w hw with rfl | hwq
            · exact h2 cw hcwm w0 hw0pend
            · exact h2 cw hcwm w (hqpend w hwq)
          · intro cw hcwm w hw
            rw [hpend] at hw
            rcases renderStep_readingQueue_mem shuffle hshuffle _ cw hcwm with hrq | hcm
            · rw [hrdq] at hrq
              rcases hmemq w hw with rfl | hwq
              · exact h3 cw hrq w0 hw0pend
              · exact h3 cw hrq w (hqpend w hwq)
            · rw [hcwds] at hcm
              rcases hmemq w hw with rfl | hwq
              · exact h2 cw hcm w0 hw0pend
              · exact h2 cw hcm w (hqpend w hwq)
          · intro w hw hd op hop
            rw [hpend] at hw
            rcases hmemq w hw with rfl | hwq
            · exact Bool.noConfusion hd
            · rcases List.mem_append.mp hop with hold | hnew
              · exact h4 w (hqpend w hwq) hd op hold
              · rw [hops op hnew]
                exact Ne.symm (hqid w hwq)
        · have hq0 : (completeQuizWordCore w0 e st).1.quizQueue = st.quizQueue := by
            rw [completeQuizWordCore_quizQueue, if_neg he]
          have hcwds : (completeQuizWordCore w0 e st).1.completedWords =
              st.completedWords ++ [⟨w0.id, w0.text, !decide (w0.id ∈ st.missedWords)⟩] := by
            rw [completeQuizWordCore_completedWords, if_neg he]
          refine ⟨?_, ?_, ?_, ?_⟩
          · rw [hpend, hq0]
            exact h1'.2
          · intro cw hcwm w hw
            rw [(renderStep_frame shuffle _).2.2.1, hcwds] at hcwm
            rw [hpend, hq0] at hw
            rcases List.mem_append.mp hcwm with hold | hnewcw
            · exact h2 cw hold w (hqpend w hw)
            · have hcweq : cw = ⟨w0.id, w0.text, !decide (w0.id ∈ st.missedWords)⟩ := by
                simpa using hnewcw
              subst hcweq
              exact Ne.symm (hqid w hw)
          · intro cw hcwm w hw
            rw [hpend, hq0] at hw
            rcases renderStep_readingQueue_mem shuffle hshuffle _ cw hcwm with hrq | hcm
            · rw [hrdq] at hrq
              exact h3 cw hrq w (hqpend w hw)
            · rw [hcwds] at hcm
              rcases List.mem_append.mp hcm with hold | hnewcw
              · exact h2 cw hold w (hqpend w hw)
              · have hcweq : cw = ⟨w0.id, w0.text, !decide (w0.id ∈ st.missedWords)⟩ := by
                  simpa using hnewcw
                subst hcweq
                exact Ne.symm (hqid w hw)
          · intro w hw hd op hop
            rw [hpend, hq0] at hw
            rcases List.mem_append.mp hop with hold | hnew
            · exact h4 w (hqpend w hw) hd op hold
            · rw [hops op hnew]
              exact Ne.symm (hqid w hw)
      all_goals (rw [List.append_nil]; exact hinv)

theorem initSession_SessInv (shuffle : List CompletedWord → List CompletedWord)
    (hshuffle : ∀ l, ∀ x ∈ shuffle l, x ∈ l) (allWords : List Word) (quizLength : Nat)
    (hids : (allWords.map fun w => w.id).Nodup) :
    SessInv (initSession shuffle allWords quizLength) [] := by
  unfold SessInv initSession
  refine ⟨?_, ?_, ?_, ?_⟩
  · rw [renderStep_pendingWords_eq]
    dsimp only
    apply separateHomophones_ids_nodup
    rw [List.map_take]
    exact List.Nodup.sublist (List.take_sublist _ _) hids
  · intro cw hcwm w hw
    rw [(renderStep_frame shuffle _).2.2.1] at hcwm
    exact absurd hcwm (List.not_mem_nil cw)
  · intro cw hcwm w hw
    rcases renderStep_readingQueue_mem shuffle hshuffle _ cw hcwm with h | h
    · exact absurd h (List.not_mem_nil cw)
    · exact absurd h (List.not_mem_nil cw)
  · intro w hw hd op hop
    exact absurd hop (List.not_mem_nil op)

/-- Claim C8: a store write of `markWordDrilled` or `recordAttempt` can
only be issued by the spelling completion of the word currently on
display, and targets exactly that word's id; consequently -- for any
session over words with pairwise-distinct ids and any
membership-preserving shuffle -- a word that is still pending (on
display or queued) and still untaught after any event script, including
scripts that cancel mid-session via the exit button, has had no store
operation of any kind written for its id: it remains untaught with no
attempt or sight-read record. -/
theorem untaught_word_never_written :
    (∀ (shuffle : List CompletedWord → List CompletedWord) (st : QuizState) (ev : Event)
        (op : StoreOp), op ∈ (step shuffle st ev).2 →
      ((∃ i, op = StoreOp.markDrilled i) ∨ ∃ i b, op = StoreOp.recordAttempt i b) →
      ∃ w0 e, st.phase = Phase.spelling ∧ st.currentWord = some w0 ∧
        ev = Event.spellComplete e ∧ opId op = w0.id) ∧
    (∀ (shuffle : List CompletedWord → List CompletedWord),
      (∀ l, ∀ x ∈ shuffle l, x ∈ l) →
      ∀ (allWords : List Word) (quizLength : Nat),
        (allWords.map fun w => w.id).Nodup →
        ∀ (evs : List Event) (w : Word),
          ((runSteps shuffle (initSession shuffle allWords quizLength) evs).1.currentWord =
              some w ∨
            w ∈ (runSteps shuffle (initSession shuffle allWords quizLength) evs).1.quizQueue) →
          w.drilled = false →
          ∀ op ∈ (runSteps shuffle (initSession shuffle allWords quizLength) evs).2,
            opId op ≠ w.id) := by
  constructor
  · intro shuffle st ev op hop hshape
    unfold step at hop
    cases ev with
      | exitPressed =>
        dsimp only at hop
        split at hop <;> exact absurd hop (List.not_mem_nil op)
      | donePressed =>
        dsimp only at hop
        split at hop
        · exfalso
          have hm := finalize_isMoveOp st op hop
          rcases hshape with ⟨i, rfl⟩ | ⟨i, b, rfl⟩
          · exact Bool.noConfusion hm
          · exact Bool.noConfusion hm
        · exact absurd hop (List.not_mem_nil op)
      | readGotIt =>
        dsimp only at hop
        split at hop
        · exfalso
          rcases readingStep_ops true st with hnil | ⟨cur, -, hone⟩
          · rw [hnil] at hop
            exact absurd hop (List.not_mem_nil op)
          · rw [hone] at hop
            have hh : op = StoreOp.recordSightRead cur.id true := by simpa using hop
            subst hh
            rcases hshape with ⟨i, heq⟩ | ⟨i, b, heq⟩ <;> exact StoreOp.noConfusion heq
        · exact absurd hop (List.not_mem_nil op)
      | readMissed =>
        dsimp only at hop
        split at hop
        · exfalso
          rcases readingStep_ops false st with hnil | ⟨cur, -, hone⟩
          · rw [hnil] at hop
            exact absurd hop (List.not_mem_nil op)
          · rw [hone] at hop
            have hh : op = StoreOp.recordSightRead cur.id false := by simpa using hop
            subst hh
            rcases hshape with ⟨i, heq⟩ | ⟨i, b, heq⟩ <;> exact StoreOp.noConfusion heq
        · exact absurd hop (List.not_mem_nil op)
      | spellComplete e =>
        dsimp only at hop
        rcases hph : st.phase <;> rw [hph] at hop <;>
          rcases hcw : st.currentWord with _ | w0 <;> rw [hcw] at hop <;> dsimp only at hop
        · exact absurd hop (List.not_mem_nil op)
        · exact ⟨w0, e, rfl, rfl, rfl, completeQuizWordCore_ops_id w0 e st op hop⟩
        all_goals exact absurd hop (List.not_mem_nil op)
  · intro shuffle hshuffle allWords quizLength hids evs w hpend hd op hop
    have hinv := runSteps_invariant shuffle SessInv
      (fun st ev log h => step_preserves_SessInv shuffle hshuffle st ev log h)
      evs (initSession shuffle allWords quizLength) []
      (initSession_SessInv shuffle hshuffle allWords quizLength hids)
    obtain ⟨-, -, -, h4⟩ := hinv
    have hw : w ∈ pendingWords
        (runSteps shuffle (initSession shuffle allWords quizLength) evs).1 := by
      unfold pendingWords
      rcases hpend with hc | hq
      · rw [hc]
        exact List.mem_append_left _ (List.mem_cons_self _ _)
      · exact List.mem_append_right _ hq
    exact h4 w hw hd op (by simpa using hop)

/-- Concrete instance of `untaught_word_never_written`: with two untaught
words and a two-word quiz, spelling the first correctly and then exiting
leaves the second word on display, still untaught, and the session log
(the taught flag and attempt record of the first word only) contains no
operation targeting the second word's id. -/
theorem untaught_word_never_written_witness :
    ((runSteps id (initSession id [⟨1, "cat", false⟩, ⟨2, "dog", false⟩] 2)
        [Event.spellComplete 0, Event.exitPressed]).1.currentWord =
      some ⟨2, "dog", false⟩) ∧
    ((runSteps id (initSession id [⟨1, "cat", false⟩, ⟨2, "dog", false⟩] 2)
        [Event.spellComplete 0, Event.exitPressed]).2 =
      [StoreOp.markDrilled 1, StoreOp.recordAttempt 1 true]) ∧
    (∀ op ∈ (runSteps id (initSession id [⟨1, "cat", false⟩, ⟨2, "dog", false⟩] 2)
        [Event.spellComplete 0, Event.exitPressed]).2,
      opId op ≠ (⟨2, "dog", false⟩ : Word).id) := by
  refine ⟨by decide, by decide, ?_⟩
  exact untaught_word_never_written.2 id (fun l x h => h)
    [⟨1, "cat", false⟩, ⟨2, "dog", false⟩] 2 (by decide)
    [Event.spellComplete 0, Event.exitPressed] ⟨2, "dog", false⟩
    (Or.inl (by decide)) rfl

end WordGame
